import Mathlib

/-
Verification development for the orthopy quadrature core.

The embedded code is `src/orthopy/schemes.py` (the `custom` Gauss-quadrature
entry point with its three precision backends and the per-family convenience
wrappers), `src/orthopy/c1/gegenbauer.py` and `src/orthopy/enr2/main.py`.

External library calls (sympy's `Matrix.eigenvects`, mpmath's `tridiag_eigen`,
scipy's `eig_banded`, sympy's `N`, and the per-family provider module
`recurrence_coefficients`) are not part of the repository: they are abstracted
as oracle parameters (`Solvers`, plain function arguments), and theorems state
their documented contracts as hypotheses.  Everything the repository's own
code computes — matrix construction, weight post-processing, sorting,
backend dispatch, the precision-state mutation, and the `beta[0]` overwrite in
the wrappers — is embedded directly.  Numeric types (sympy exact rationals,
mpmath fixed-precision decimals, IEEE doubles) are idealized as a common
linearly ordered field; value-preserving conversions (`sympy.Float`,
`scipy.real` on real data, `sympy.simplify`) are modelled as the identity.
-/

namespace Orthopy

/-- One item of sympy's `Matrix.eigenvects()` output: an eigenvalue, its
algebraic multiplicity, and a list of basis vectors of its eigenspace. -/
structure EigItem (α : Type*) (n : ℕ) where
  val : α
  mult : ℕ
  vecs : List (Fin n → α)

/-- The external eigensolvers called by `schemes.py`, abstracted as oracles:
`eigenvects` is sympy's symbolic eigendecomposition, `tridiag_eigen` is
mpmath's in-place symmetric tridiagonal solver (first argument: the ambient
decimal precision `mp.dps` at call time; then the diagonal `d`, the
off-diagonal vector `e` and the accumulation row `z`; returns the mutated
`(d, z)`), and `eig_banded` is scipy's banded symmetric solver (input: the
2×n upper band array; returns eigenvalues and the eigenvector matrix). -/
structure Solvers (α : Type*) (n : ℕ) where
  eigenvects : Matrix (Fin n) (Fin n) α → List (EigItem α n)
  tridiag_eigen : ℕ → (Fin n → α) → (Fin n → α) → (Fin n → α) → (Fin n → α) × (Fin n → α)
  eig_banded : (Fin 2 → Fin n → α) → (Fin n → α) × Matrix (Fin n) (Fin n) α

variable {α : Type*} {n : ℕ}

/-- Embedding of `_sympy_tridiag(a, b)` from `schemes.py`: the n×n matrix with
`A[i][i] = a[i]`, `A[i][i+1] = A[i+1][i] = b[i+1]`, all other entries zero.
Note that `b[0]` is never read. -/
def sympy_tridiag [Zero α] (a b : Fin n → α) : Matrix (Fin n) (Fin n) α :=
  Matrix.of fun i j =>
    if i = j then a i
    else if (j : ℕ) = (i : ℕ) + 1 then b j
    else if (i : ℕ) = (j : ℕ) + 1 then b i
    else 0

/-- Embedding of `sum([v**2 for v in vec])` in `_gauss_from_coefficients_sympy`. -/
def norm2 [Monoid α] [AddCommMonoid α] (v : Fin n → α) : α :=
  ∑ j, v j ^ 2


/-- Comparison of `(node, weight)` pairs by node, the key used by
`sorted(range(len(x)), key=lambda i: x[i])` in the sympy backend. -/
def pairLE [LE α] (p q : α × α) : Prop := p.1 ≤ q.1

instance [LinearOrder α] : DecidableRel (pairLE (α := α)) :=
  fun p q => inferInstanceAs (Decidable (p.1 ≤ q.1))

instance [LinearOrder α] : IsTotal (α × α) pairLE :=
  ⟨fun p q => le_total p.1 q.1⟩

instance [LinearOrder α] : IsTrans (α × α) pairLE :=
  ⟨fun _ _ _ h1 h2 => le_trans h1 h2⟩

variable [LinearOrderedField α]

/-- The `(node, weight)` pair the sympy backend builds from one `eigenvects`
item: node `val`, weight `beta[0] * vec[0]**2 / norm2` (the second component is
junk when the basis list is not a singleton; the loop has already failed in
that case). -/
def pairOf [NeZero n] (beta0 : α) (it : EigItem α n) : α × α :=
  match it.vecs with
  | [v] => (it.val, beta0 * v 0 ^ 2 / norm2 v)
  | _ => (it.val, 0)

/-- Embedding of the item loop of `_gauss_from_coefficients_sympy`: for each
eigenvects item, `assert multiplicity == 1`, `assert len(vec) == 1`, then
collect `(val, beta[0] * vec[0]**2 / norm2)`.  A failed assert is a fatal
error.  `sympy.simplify` is value-preserving and is modelled as the
identity. -/
def processItems [NeZero n] (beta0 : α) :
    List (EigItem α n) → Except String (List (α × α))
  | [] => .ok []
  | it :: rest =>
    if it.mult ≠ 1 then .error "DegenerateSpectrum: assert multiplicity == 1"
    else
      match it.vecs with
      | [v] =>
        match processItems beta0 rest with
        | .ok tail => .ok ((it.val, beta0 * v 0 ^ 2 / norm2 v) :: tail)
        | .error e => .error e
      | _ => .error "assert len(vec) == 1"

/-- Embedding of `_gauss_from_coefficients_sympy(alpha, beta)`: build the
tridiagonal matrix from `alpha` and `sqrt(beta)`, feed it to sympy's
`eigenvects`, post-process each item, and sort the `(node, weight)` pairs
ascending by node.  Python's stable `sorted` of indices keyed on `x[i]`,
followed by reindexing both `x` and `w`, is embedded as a stable insertion
sort of the zipped pairs, which produces the same two lists. -/
def gauss_from_coefficients_sympy [NeZero n] (sqrt : α → α) (sv : Solvers α n)
    (alpha beta : Fin n → α) : Except String (List α × List α) :=
  match processItems (beta 0)
      (sv.eigenvects (sympy_tridiag alpha (fun k => sqrt (beta k)))) with
  | .error e => .error e
  | .ok pairs =>
      let s := List.insertionSort pairLE pairs
      .ok (s.map Prod.fst, s.map Prod.snd)

/-- Embedding of the off-diagonal vector `b` built by
`_gauss_from_coefficients_mpmath`: `b[i] = sqrt(beta[i+1])` for `i < n-1`,
and the allocation-time zero in the last slot. -/
def mpmath_offdiag (sqrt : α → α) (beta : Fin n → α) : Fin n → α :=
  fun i => if h : (i : ℕ) + 1 < n then sqrt (beta ⟨(i : ℕ) + 1, h⟩) else 0

/-- Embedding of the accumulation row `z` initialized to `[1, 0, ..., 0]` in
`_gauss_from_coefficients_mpmath`. -/
def mpmath_zrow [NeZero n] : Fin n → α :=
  fun i => if i = 0 then (1 : α) else 0

/-- Embedding of `_gauss_from_coefficients_mpmath(alpha, beta, decimal_places)`.
The function first executes `mp.dps = decimal_places` (the process-wide mpmath
precision, modelled as explicit state `dps` threaded in and out), builds the
diagonal `d = alpha`, the off-diagonal `b` and the row `z`, calls mpmath's
`tridiag_eigen` at the now-current precision, and returns nodes `d` and
weights `beta[0] * z[i]**2`.  The `sympy.Float` conversion of the nodes is
value-preserving at the embedding's idealized-arithmetic level.  The mutated
precision is returned as the final state: nothing restores the old value. -/
def gauss_from_coefficients_mpmath [NeZero n] (sqrt : α → α) (sv : Solvers α n)
    (alpha beta : Fin n → α) (decimal_places : ℕ) (dps : ℕ) :
    (List α × List α) × ℕ :=
  let dps1 := decimal_places
  let dz := sv.tridiag_eigen dps1 alpha (mpmath_offdiag sqrt beta) mpmath_zrow
  ((List.ofFn dz.1, List.ofFn fun i => beta 0 * dz.2 i ^ 2), dps1)

/-- Embedding of `numpy.vstack((numpy.sqrt(beta), alpha))` in
`_gauss_from_coefficients_numpy`: row 0 is `sqrt(beta)`, row 1 is `alpha`. -/
def numpy_band (sqrt : α → α) (alpha beta : Fin n → α) : Fin 2 → Fin n → α :=
  fun r j => if r = 0 then sqrt (beta j) else alpha j

/-- The symmetric matrix that `scipy.linalg.eig_banded(A, lower=False)`
reads from a 2×n upper band array `A` (documented band storage for upper
form with one super-diagonal): diagonal `A[1][j]`, super-diagonal entry
`(i, i+1) = A[0][i+1]`, symmetric, everything else zero.  The corner slot
`A[0][0]` is never read. -/
def band_matrix (A : Fin 2 → Fin n → α) : Matrix (Fin n) (Fin n) α :=
  Matrix.of fun i j =>
    if i = j then A 1 i
    else if (j : ℕ) = (i : ℕ) + 1 then A 0 j
    else if (i : ℕ) = (j : ℕ) + 1 then A 0 i
    else 0

/-- Embedding of `_gauss_from_coefficients_numpy(alpha, beta)`: build the band
array, call `eig_banded`, and return nodes `x` and weights
`beta[0] * real(V[0, :] ** 2)` (the inputs are real, so `scipy.real` is the
identity here). -/
def gauss_from_coefficients_numpy [NeZero n] (sqrt : α → α) (sv : Solvers α n)
    (alpha beta : Fin n → α) : List α × List α :=
  let xV := sv.eig_banded (numpy_band sqrt alpha beta)
  (List.ofFn xV.1, List.ofFn fun i => beta 0 * xV.2 0 i ^ 2)

/-- Embedding of `custom(alpha, beta, mode='mpmath', decimal_places=32)` from
`schemes.py`: dispatch on the mode string; an unrecognized mode hits
`assert mode == 'numpy'` and fails before any backend computation.  The
process-wide mpmath precision is threaded as explicit state `dps`. -/
def custom [NeZero n] (sqrt : α → α) (sv : Solvers α n) (alpha beta : Fin n → α)
    (mode : String) (decimal_places : ℕ) (dps : ℕ) :
    Except String ((List α × List α) × ℕ) :=
  if mode = "sympy" then
    match gauss_from_coefficients_sympy sqrt sv alpha beta with
    | .error e => .error e
    | .ok xw => .ok (xw, dps)
  else if mode = "mpmath" then
    .ok (gauss_from_coefficients_mpmath sqrt sv alpha beta decimal_places dps)
  else if mode = "numpy" then
    .ok (gauss_from_coefficients_numpy sqrt sv alpha beta, dps)
  else .error "UnsupportedBackend: assert mode == numpy failed"

/-- The Jacobi matrix of a coefficient pair `(alpha, beta)`: diagonal `alpha`,
off-diagonals `sqrt(beta[k])` for `k ≥ 1`.  This is the matrix every backend
hands to its eigensolver. -/
def jacobi_matrix (sqrt : α → α) (alpha beta : Fin n → α) :
    Matrix (Fin n) (Fin n) α :=
  sympy_tridiag alpha (fun k => sqrt (beta k))

/-- Documented contract of the numeric symmetric eigensolvers (mpmath's
`tridiag_eigen`, scipy's `eig_banded`): the returned `d` lists the eigenvalues
in ascending order and `vecs` are corresponding orthonormal eigenvectors. -/
def OrthonormalEigendata (T : Matrix (Fin n) (Fin n) α) (d : Fin n → α)
    (vecs : Fin n → Fin n → α) : Prop :=
  (∀ i, T.mulVec (vecs i) = d i • vecs i)
    ∧ (∀ i j, Matrix.dotProduct (vecs i) (vecs j) = if i = j then 1 else 0)
    ∧ Monotone d

/-- Modelled from the spec: the generic three-term-recurrence evaluation
sequence of §4.1, `p_{k+1}(x) = (x − α_k)·p_k(x) − β_k·p_{k−1}(x)` seeded with
`p_{-1} = 0` and `p_0` the standardization constant.  It stands in for the
evaluation engine of `orthopy/c1/jacobi.py`, which is repository code absent
from `src/`. -/
def evalSequence (al be : ℕ → α) (p0 x : α) : ℕ → α
  | 0 => p0
  | 1 => (x - al 0) * p0
  | k + 2 => (x - al (k + 1)) * evalSequence al be p0 x (k + 1)
      - be (k + 1) * evalSequence al be p0 x k

/-- Modelled from the spec: `orthopy/c1/jacobi.py` `Eval` (the superclass
used by `c1/gegenbauer.py`) is absent from `src/`.  Per spec §4.1/§9 it is
the recurrence engine applied to the family's coefficient streams, which the
spec treats as a black-box provider; the provider `rc` (scaling, the two
Jacobi parameters, symbolic flag ↦ coefficient streams and seed constant) is
therefore an abstract argument. -/
def jacobi_Eval {S L Y : Type*} (rc : S → L → L → Y → (ℕ → α) × (ℕ → α) × α)
    (X : α) (scaling : S) (a b : L) (symbolic : Y) : ℕ → α :=
  evalSequence (rc scaling a b symbolic).1 (rc scaling a b symbolic).2.1
    (rc scaling a b symbolic).2.2 X

/-- Embedding of `c1/gegenbauer.py` `Eval`: a subclass of `jacobi.Eval` whose
constructor only calls `super().__init__(X, scaling, lmbda, lmbda, symbolic)`;
nothing else is overridden. -/
def gegenbauer_Eval {S L Y : Type*} (rc : S → L → L → Y → (ℕ → α) × (ℕ → α) × α)
    (X : α) (scaling : S) (lmbda : L) (symbolic : Y) : ℕ → α :=
  jacobi_Eval rc X scaling lmbda lmbda symbolic

/-- Embedding of `c1/gegenbauer.py` `RecurrenceCoefficients`: the parent
class `jacobi.RecurrenceCoefficients` (absent from `src/`) is abstracted as a
function; the subclass constructor passes `(scaling, lmbda, lmbda, symbolic)`
and nothing else. -/
def gegenbauer_RecurrenceCoefficients {S L Y E : Type*}
    (jacobiRC : S → L → L → Y → E) (scaling : S) (lmbda : L) (symbolic : Y) : E :=
  jacobiRC scaling lmbda lmbda symbolic

/-- The `symbolic` argument of the enr2 evaluators: the string `"auto"` or an
explicit boolean. -/
inductive SymFlag where
  | auto : SymFlag
  | fixed : Bool → SymFlag

/-- The argument tuple handed to `ProductEval.__init__` and
`ProductEvalWithDegrees.__init__` (the shared product base in
`orthopy/helpers.py`, external to `src/`): the coefficient provider, the
total-mass constant `int_1`, the point set and the resolved symbolic flag. -/
structure ProductEvalArgs (R V Ξ : Type*) where
  rc : R
  int_1 : V
  points : Ξ
  symbolic : Bool

/-- Embedding of `enr2/main.py` `Eval.__init__`: resolve `symbolic="auto"`
through the dtype test (abstracted as the boolean `Xsym`), select the
provider from the standardization dict (KeyError otherwise), pick `sqrt`/`pi`
from sympy in symbolic mode and from numpy otherwise, and pass
`int_1 = sqrt(pi)` to the product base. -/
def enr2_Eval {R V Ξ : Type*} (RCProbabilistNormal RCPhysicistNormal : Bool → R)
    (sympy_sqrt : V → V) (sympy_pi : V) (numpy_sqrt : V → V) (numpy_pi : V)
    (Xsym : Bool) (X : Ξ) (standardization : String) (symbolic : SymFlag) :
    Except String (ProductEvalArgs R V Ξ) :=
  let sym := match symbolic with
    | .auto => Xsym
    | .fixed b => b
  match (if standardization = "probabilists" then some (RCProbabilistNormal sym)
      else if standardization = "physicists" then some (RCPhysicistNormal sym)
      else none) with
  | none => .error "KeyError"
  | some rc =>
      let sq := if sym then sympy_sqrt else numpy_sqrt
      let piv := if sym then sympy_pi else numpy_pi
      .ok ⟨rc, sq piv, X, sym⟩

/-- Embedding of `enr2/main.py` `EvalWithDegrees.__init__`: a verbatim twin
of `Eval.__init__` feeding `ProductEvalWithDegrees` instead. -/
def enr2_EvalWithDegrees {R V Ξ : Type*}
    (RCProbabilistNormal RCPhysicistNormal : Bool → R)
    (sympy_sqrt : V → V) (sympy_pi : V) (numpy_sqrt : V → V) (numpy_pi : V)
    (Xsym : Bool) (X : Ξ) (standardization : String) (symbolic : SymFlag) :
    Except String (ProductEvalArgs R V Ξ) :=
  let sym := match symbolic with
    | .auto => Xsym
    | .fixed b => b
  match (if standardization = "probabilists" then some (RCProbabilistNormal sym)
      else if standardization = "physicists" then some (RCPhysicistNormal sym)
      else none) with
  | none => .error "KeyError"
  | some rc =>
      let sq := if sym then sympy_sqrt else numpy_sqrt
      let piv := if sym then sympy_pi else numpy_pi
      .ok ⟨rc, sq piv, X, sym⟩

/-- Embedding of `schemes.legendre(n, decimal_places)`: the provider
`recurrence_coefficients.legendre` is external to `src/`, so its output
arrays are arguments; the wrapper forwards them to `custom` with
`mode='mpmath'`, `beta` unmodified. -/
def legendre [NeZero n] (sqrt : α → α) (sv : Solvers α n)
    (alpha beta : Fin n → α) (decimal_places dps : ℕ) :
    Except String ((List α × List α) × ℕ) :=
  custom sqrt sv alpha beta "mpmath" decimal_places dps

/-- Embedding of `schemes.jacobi(a, b, n, decimal_places)`: provider output
forwarded to `custom` with `mode='mpmath'`, `beta` unmodified. -/
def jacobi [NeZero n] (sqrt : α → α) (sv : Solvers α n)
    (alpha beta : Fin n → α) (decimal_places dps : ℕ) :
    Except String ((List α × List α) × ℕ) :=
  custom sqrt sv alpha beta "mpmath" decimal_places dps

/-- Embedding of `schemes.laguerre(n, decimal_places)`: `beta` unmodified. -/
def laguerre [NeZero n] (sqrt : α → α) (sv : Solvers α n)
    (alpha beta : Fin n → α) (decimal_places dps : ℕ) :
    Except String ((List α × List α) × ℕ) :=
  custom sqrt sv alpha beta "mpmath" decimal_places dps

/-- Embedding of `schemes.laguerre_generalized(n, a, decimal_places)`:
`beta` unmodified. -/
def laguerre_generalized [NeZero n] (sqrt : α → α) (sv : Solvers α n)
    (alpha beta : Fin n → α) (decimal_places dps : ℕ) :
    Except String ((List α × List α) × ℕ) :=
  custom sqrt sv alpha beta "mpmath" decimal_places dps

/-- Embedding of `schemes.chebyshev1(n, decimal_places)`: before calling the
mpmath backend it executes `beta[0] = sympy.N(beta[0], decimal_places)`;
sympy's `N` is external and passed as `Nf`. -/
def chebyshev1 [NeZero n] (sqrt : α → α) (sv : Solvers α n) (Nf : α → ℕ → α)
    (alpha beta : Fin n → α) (decimal_places dps : ℕ) :
    Except String ((List α × List α) × ℕ) :=
  custom sqrt sv alpha (Function.update beta 0 (Nf (beta 0) decimal_places))
    "mpmath" decimal_places dps

/-- Embedding of `schemes.chebyshev2(n, decimal_places)`: same `beta[0]`
overwrite as `chebyshev1`. -/
def chebyshev2 [NeZero n] (sqrt : α → α) (sv : Solvers α n) (Nf : α → ℕ → α)
    (alpha beta : Fin n → α) (decimal_places dps : ℕ) :
    Except String ((List α × List α) × ℕ) :=
  custom sqrt sv alpha (Function.update beta 0 (Nf (beta 0) decimal_places))
    "mpmath" decimal_places dps

/-- Embedding of `schemes.hermite(n, decimal_places)`: same `beta[0]`
overwrite as `chebyshev1`. -/
def hermite [NeZero n] (sqrt : α → α) (sv : Solvers α n) (Nf : α → ℕ → α)
    (alpha beta : Fin n → α) (decimal_places dps : ℕ) :
    Except String ((List α × List α) × ℕ) :=
  custom sqrt sv alpha (Function.update beta 0 (Nf (beta 0) decimal_places))
    "mpmath" decimal_places dps

/-- Concrete 1×1 solver fixture: `eigenvects` reports the single eigenvalue 0
with multiplicity 1 and eigenvector `(1)`, `tridiag_eigen` returns its inputs,
`eig_banded` returns eigenvalue 0 with the identity eigenvector matrix. -/
def trivSolvers : Solvers ℚ 1 :=
  ⟨fun _ => [⟨0, 1, [fun _ => 1]⟩], fun _ d _ z => (d, z), fun _ => (fun _ => 0, 1)⟩

/-- Concrete 1×1 solver fixture whose `eigenvects` reports a degenerate
eigenvalue of multiplicity 2 with a two-vector basis. -/
def degSolvers : Solvers ℚ 1 :=
  ⟨fun _ => [⟨3, 2, [fun _ => 1, fun _ => 1]⟩], fun _ d _ z => (d, z),
    fun _ => (fun _ => 0, 1)⟩

/-- The all-zero coefficient array used by concrete instances. -/
def qzero : Fin 1 → ℚ := fun _ => 0

/-- The all-one coefficient array used by concrete instances. -/
def qone : Fin 1 → ℚ := fun _ => 1

/-- The all-zero length-2 coefficient array used by concrete instances. -/
def q2zero : Fin 2 → ℚ := fun _ => 0

/-- The all-two length-2 coefficient array used by concrete instances. -/
def q2two : Fin 2 → ℚ := fun _ => 2


/-- Summand decomposition for a row of the tridiagonal matrix. -/
theorem sympy_tridiag_apply_mul (a b v : Fin n → α) (i j : Fin n) :
    sympy_tridiag a b i j * v j =
      (if i = j then a i * v j else 0)
        + (if (j : ℕ) = (i : ℕ) + 1 then b j * v j else 0)
        + (if (i : ℕ) = (j : ℕ) + 1 then b i * v j else 0) := by
  unfold sympy_tridiag
  rcases eq_or_ne i j with h1 | h1
  · subst h1
    have c2 : ¬ ((i : ℕ) = (i : ℕ) + 1) := by omega
    simp [Matrix.of_apply, c2]
  · rcases eq_or_ne ((j : ℕ)) ((i : ℕ) + 1) with h2 | h2
    · have h3 : ¬ ((i : ℕ) = (j : ℕ) + 1) := by omega
      have c4 : ¬ ((i : ℕ) = (i : ℕ) + 1 + 1) := by omega
      simp [Matrix.of_apply, h1, h2, h3, c4]
    · rcases eq_or_ne ((i : ℕ)) ((j : ℕ) + 1) with h3 | h3
      · have c4 : ¬ ((j : ℕ) = (j : ℕ) + 1 + 1) := by omega
        simp [Matrix.of_apply, h1, h2, h3, c4]
      · simp [Matrix.of_apply, h1, h2, h3]

/-- Row formula for the tridiagonal matrix action: row `i` of
`sympy_tridiag a b *ᵥ v` is `b[i+1]*v[i+1] + a[i]*v[i] + b[i]*v[i-1]`
(boundary terms dropped). -/
theorem sympy_tridiag_mulVec (a b v : Fin n → α) (i : Fin n) :
    (sympy_tridiag a b).mulVec v i =
      (if h : (i : ℕ) + 1 < n then b ⟨(i : ℕ) + 1, h⟩ * v ⟨(i : ℕ) + 1, h⟩ else 0)
        + a i * v i
        + (if h : 0 < (i : ℕ) then
            b i * v ⟨(i : ℕ) - 1, Nat.lt_of_le_of_lt (Nat.sub_le _ _) i.isLt⟩ else 0) := by
  have hm : (sympy_tridiag a b).mulVec v i = ∑ j, sympy_tridiag a b i j * v j := by
    simp [Matrix.mulVec, Matrix.dotProduct]
  rw [hm, Finset.sum_congr rfl (fun j _ => sympy_tridiag_apply_mul a b v i j),
    Finset.sum_add_distrib, Finset.sum_add_distrib]
  have hdiag : (∑ j : Fin n, if i = j then a i * v j else 0) = a i * v i := by
    rw [Finset.sum_ite_eq Finset.univ i (fun j => a i * v j), if_pos (Finset.mem_univ i)]
  have hsup : (∑ j : Fin n, if (j : ℕ) = (i : ℕ) + 1 then b j * v j else 0)
      = (if h : (i : ℕ) + 1 < n then b ⟨(i : ℕ) + 1, h⟩ * v ⟨(i : ℕ) + 1, h⟩ else 0) := by
    by_cases h : (i : ℕ) + 1 < n
    · rw [dif_pos h]
      have hcond : ∀ j : Fin n, ((j : ℕ) = (i : ℕ) + 1) ↔ (j = ⟨(i : ℕ) + 1, h⟩) :=
        fun j => ⟨fun hh => Fin.ext hh, fun hh => by rw [hh]⟩
      rw [Finset.sum_congr rfl (fun j _ => if_congr (hcond j) rfl rfl),
        Finset.sum_ite_eq' Finset.univ (⟨(i : ℕ) + 1, h⟩ : Fin n) (fun j => b j * v j),
        if_pos (Finset.mem_univ _)]
    · rw [dif_neg h, Finset.sum_eq_zero]
      intro j _
      have := j.isLt
      exact if_neg (by omega)
  have hsub : (∑ j : Fin n, if (i : ℕ) = (j : ℕ) + 1 then b i * v j else 0)
      = (if h : 0 < (i : ℕ) then
          b i * v ⟨(i : ℕ) - 1, Nat.lt_of_le_of_lt (Nat.sub_le _ _) i.isLt⟩ else 0) := by
    by_cases h : 0 < (i : ℕ)
    · rw [dif_pos h]
      have hcond : ∀ j : Fin n, ((i : ℕ) = (j : ℕ) + 1) ↔
          (j = ⟨(i : ℕ) - 1, Nat.lt_of_le_of_lt (Nat.sub_le _ _) i.isLt⟩) := by
        intro j
        constructor
        · intro hh
          exact Fin.ext (show (j : ℕ) = (i : ℕ) - 1 by omega)
        · intro hh
          subst hh
          show (i : ℕ) = (i : ℕ) - 1 + 1
          omega
      rw [Finset.sum_congr rfl (fun j _ => if_congr (hcond j) rfl rfl),
        Finset.sum_ite_eq' Finset.univ
          (⟨(i : ℕ) - 1, Nat.lt_of_le_of_lt (Nat.sub_le _ _) i.isLt⟩ : Fin n)
          (fun j => b i * v j),
        if_pos (Finset.mem_univ _)]
    · rw [dif_neg h, Finset.sum_eq_zero]
      intro j _
      exact if_neg (by omega)
  rw [hdiag, hsup, hsub]
  ring


/-- The sympy item loop succeeds exactly when every item has multiplicity one
and a singleton basis list, in which case it returns the `(node, weight)`
pairs in item order. -/
theorem processItems_ok_iff [NeZero n] (beta0 : α) (items : List (EigItem α n))
    (pairs : List (α × α)) :
    processItems beta0 items = .ok pairs ↔
      (∀ it ∈ items, it.mult = 1 ∧ ∃ v, it.vecs = [v]) ∧
        pairs = items.map (pairOf beta0) := by
  induction items generalizing pairs with
  | nil => simp [processItems, eq_comm]
  | cons it rest ih =>
    constructor
    · intro h
      by_cases hm : it.mult = 1
      · rcases hv : it.vecs with _ | ⟨v, _ | ⟨v2, tl⟩⟩
        · exfalso
          simp [processItems, hm, hv] at h
        · cases hrec : processItems beta0 rest with
          | error e =>
            exfalso
            simp [processItems, hm, hv, hrec] at h
          | ok tail =>
            simp only [processItems, hm, hv, hrec, ne_eq, not_true_eq_false,
              if_false, ite_false, Except.ok.injEq] at h
            have h' : (it.val, beta0 * v 0 ^ 2 / norm2 v) :: tail = pairs := by
              simpa [hm] using h
            obtain ⟨hall, htl⟩ := (ih tail).mp hrec
            refine ⟨?_, ?_⟩
            · intro it' hit'
              rcases List.mem_cons.mp hit' with rfl | hmem
              · exact ⟨hm, v, hv⟩
              · exact hall it' hmem
            · rw [← h', htl, List.map_cons]
              simp [pairOf, hv]
        · exfalso
          simp [processItems, hm, hv] at h
      · exfalso
        simp [processItems, hm] at h
    · rintro ⟨hall, rfl⟩
      have hm := (hall it (List.mem_cons_self it rest)).1
      obtain ⟨v, hv⟩ := (hall it (List.mem_cons_self it rest)).2
      have hrest : processItems beta0 rest = .ok (rest.map (pairOf beta0)) :=
        (ih _).mpr ⟨fun it' h' => hall it' (List.mem_cons_of_mem it h'), rfl⟩
      simp [processItems, hm, hv, hrest, pairOf]

/-- The sympy item loop fails exactly when some item breaks one of the two
asserts. -/
theorem processItems_error_iff [NeZero n] (beta0 : α) (items : List (EigItem α n)) :
    (∃ e, processItems beta0 items = .error e) ↔
      ¬ (∀ it ∈ items, it.mult = 1 ∧ ∃ v, it.vecs = [v]) := by
  constructor
  · rintro ⟨e, he⟩ hall
    have := (processItems_ok_iff beta0 items (items.map (pairOf beta0))).mpr ⟨hall, rfl⟩
    rw [this] at he
    exact Except.noConfusion he
  · intro hnot
    cases h : processItems beta0 items with
    | error e => exact ⟨e, rfl⟩
    | ok pairs => exact absurd ((processItems_ok_iff beta0 items pairs).mp h).1 hnot

/-- The tridiagonal matrix built by `_sympy_tridiag` is symmetric. -/
theorem sympy_tridiag_isSymm (a b : Fin n → α) :
    (sympy_tridiag a b).transpose = sympy_tridiag a b := by
  ext i j
  simp only [Matrix.transpose_apply, sympy_tridiag, Matrix.of_apply]
  rcases eq_or_ne i j with h1 | h1
  · subst h1
    rfl
  · rw [if_neg (Ne.symm h1), if_neg h1]
    rcases eq_or_ne ((j : ℕ)) ((i : ℕ) + 1) with h2 | h2
    · rw [if_neg (by omega), if_pos h2, if_pos h2]
    · rcases eq_or_ne ((i : ℕ)) ((j : ℕ) + 1) with h3 | h3
      · rw [if_pos h3, if_neg h2, if_pos h3]
      · rw [if_neg h3, if_neg h2, if_neg h3, if_neg h2]

/-- The symmetric matrix read by `eig_banded` from the band array that
`_gauss_from_coefficients_numpy` builds is exactly the `_sympy_tridiag`
matrix of `alpha` and `sqrt(beta)`. -/
theorem band_matrix_numpy_band (sqrt : α → α) (alpha beta : Fin n → α) :
    band_matrix (numpy_band sqrt alpha beta)
      = sympy_tridiag alpha (fun k => sqrt (beta k)) := by
  ext i j
  simp only [band_matrix, numpy_band, sympy_tridiag, Matrix.of_apply]
  have h10 : ((1 : Fin 2) = 0) = False := by simp [Fin.ext_iff]
  rcases eq_or_ne i j with h1 | h1
  · subst h1
    simp [h10]
  · rw [if_neg h1, if_neg h1]
    rcases eq_or_ne ((j : ℕ)) ((i : ℕ) + 1) with h2 | h2
    · simp [h2]
    · rcases eq_or_ne ((i : ℕ)) ((j : ℕ) + 1) with h3 | h3
      · simp [h2, h3]
      · simp [h2, h3]

theorem norm2_nonneg (v : Fin n → α) : 0 ≤ norm2 v :=
  Finset.sum_nonneg fun j _ => sq_nonneg (v j)

theorem norm2_pos (v : Fin n → α) (hv : v ≠ 0) : 0 < norm2 v := by
  obtain ⟨j, hj⟩ := Function.ne_iff.mp hv
  exact Finset.sum_pos' (fun i _ => sq_nonneg (v i))
    ⟨j, Finset.mem_univ j, lt_of_le_of_ne (sq_nonneg (v j)) (Ne.symm (pow_ne_zero 2 hj))⟩

theorem dotProduct_self_eq_norm2 (v : Fin n → α) :
    Matrix.dotProduct v v = norm2 v :=
  Finset.sum_congr rfl fun j _ => (pow_two (v j)).symm

/-- An eigenvector of the tridiagonal matrix whose off-diagonal entries are
nonzero is forced to zero everywhere once its first component is zero: each
row of the eigenvalue equation propagates the zero one index further. -/
theorem tridiag_eigenvector_zero [NeZero n] (a b : Fin n → α)
    (hb : ∀ k : Fin n, 0 < (k : ℕ) → b k ≠ 0) (μ : α) (v : Fin n → α)
    (hv : (sympy_tridiag a b).mulVec v = μ • v) (h0 : v 0 = 0) : v = 0 := by
  have key : ∀ k, ∀ hk : k < n, v ⟨k, hk⟩ = 0 := by
    intro k
    induction k using Nat.strong_induction_on with
    | _ k ih =>
      intro hk
      rcases k with _ | k
      · rw [show (⟨0, hk⟩ : Fin n) = 0 from Fin.ext (by simp [Fin.val_zero'])]
        exact h0
      · have hk' : k < n := Nat.lt_of_succ_lt hk
        have hrow := congrFun hv ⟨k, hk'⟩
        rw [sympy_tridiag_mulVec] at hrow
        have hvk : v ⟨k, hk'⟩ = 0 := ih k (Nat.lt_succ_self k) hk'
        have hsup : ((⟨k, hk'⟩ : Fin n) : ℕ) + 1 < n := hk
        rw [dif_pos hsup] at hrow
        have hsub :
            (if h : 0 < ((⟨k, hk'⟩ : Fin n) : ℕ) then
              b ⟨k, hk'⟩ * v ⟨((⟨k, hk'⟩ : Fin n) : ℕ) - 1,
                Nat.lt_of_le_of_lt (Nat.sub_le _ _) (Fin.isLt _)⟩ else 0) = 0 := by
          by_cases hkpos : 0 < k
          · rw [dif_pos hkpos]
            have hzero : v ⟨k - 1, Nat.lt_of_le_of_lt (Nat.sub_le _ _)
                (Fin.isLt (⟨k, hk'⟩ : Fin n))⟩ = 0 :=
              ih (k - 1) (by omega) _
            rw [hzero, mul_zero]
          · rw [dif_neg hkpos]
        rw [hsub] at hrow
        simp only [hvk, mul_zero, add_zero, Pi.smul_apply, smul_eq_mul] at hrow
        have hbne : b ⟨k + 1, hk⟩ ≠ 0 := hb ⟨k + 1, hk⟩ (Nat.succ_pos k)
        have := mul_eq_zero.mp hrow
        exact this.resolve_left hbne
  funext i
  have := key (i : ℕ) i.isLt
  simpa using this

/-- An eigenvector of the tridiagonal matrix has a nonzero first component. -/
theorem tridiag_eigenvector_first_ne_zero [NeZero n] (a b : Fin n → α)
    (hb : ∀ k : Fin n, 0 < (k : ℕ) → b k ≠ 0) (μ : α) (v : Fin n → α)
    (hv : (sympy_tridiag a b).mulVec v = μ • v) (hvne : v ≠ 0) : v 0 ≠ 0 :=
  fun h0 => hvne (tridiag_eigenvector_zero a b hb μ v hv h0)

theorem mulVec_dotProduct_symm (M : Matrix (Fin n) (Fin n) α)
    (hM : M.transpose = M) (u v : Fin n → α) :
    Matrix.dotProduct (M.mulVec u) v = Matrix.dotProduct u (M.mulVec v) := by
  rw [Matrix.dotProduct_comm, Matrix.dotProduct_mulVec, ← Matrix.mulVec_transpose,
    hM, Matrix.dotProduct_comm]

/-- Eigenvectors of a symmetric matrix for distinct eigenvalues are
orthogonal. -/
theorem eigenvectors_distinct_orthogonal (M : Matrix (Fin n) (Fin n) α)
    (hM : M.transpose = M) (μ ν : α) (u v : Fin n → α)
    (hu : M.mulVec u = μ • u) (hv : M.mulVec v = ν • v) (hne : μ ≠ ν) :
    Matrix.dotProduct u v = 0 := by
  have h1 : μ * Matrix.dotProduct u v = ν * Matrix.dotProduct u v := by
    calc μ * Matrix.dotProduct u v = Matrix.dotProduct (μ • u) v := by
          rw [Matrix.smul_dotProduct, smul_eq_mul]
      _ = Matrix.dotProduct (M.mulVec u) v := by rw [hu]
      _ = Matrix.dotProduct u (M.mulVec v) := mulVec_dotProduct_symm M hM u v
      _ = Matrix.dotProduct u (ν • v) := by rw [hv]
      _ = ν * Matrix.dotProduct u v := by rw [Matrix.dotProduct_smul, smul_eq_mul]
  by_contra hd
  exact hne (mul_right_cancel₀ hd h1)

/-- Two orthogonal nonzero eigenvectors of the tridiagonal matrix cannot share
an eigenvalue: a suitable linear combination would be an eigenvector with
vanishing first component, hence zero. -/
theorem tridiag_no_repeated_eigenvalue [NeZero n] (a b : Fin n → α)
    (hb : ∀ k : Fin n, 0 < (k : ℕ) → b k ≠ 0) (μ : α) (u v : Fin n → α)
    (hu : (sympy_tridiag a b).mulVec u = μ • u)
    (hv : (sympy_tridiag a b).mulVec v = μ • v)
    (hune : u ≠ 0) (hvne : v ≠ 0)
    (horth : Matrix.dotProduct u v = 0) : False := by
  have hw : (sympy_tridiag a b).mulVec (v 0 • u - u 0 • v)
      = μ • (v 0 • u - u 0 • v) := by
    rw [Matrix.mulVec_sub, Matrix.mulVec_smul, Matrix.mulVec_smul, hu, hv,
      smul_sub, smul_comm (v 0) μ u, smul_comm (u 0) μ v]
  have hw0 : (v 0 • u - u 0 • v) 0 = 0 := by
    simp [mul_comm]
  have hwz : v 0 • u - u 0 • v = 0 :=
    tridiag_eigenvector_zero a b hb μ _ hw hw0
  have h1 : v 0 • u = u 0 • v := by rwa [sub_eq_zero] at hwz
  have h2 : Matrix.dotProduct (v 0 • u) u = Matrix.dotProduct (u 0 • v) u := by
    rw [h1]
  rw [Matrix.smul_dotProduct, Matrix.smul_dotProduct, dotProduct_self_eq_norm2,
    Matrix.dotProduct_comm v u, horth, smul_zero, smul_eq_mul] at h2
  have hnu : norm2 u ≠ 0 := ne_of_gt (norm2_pos u hune)
  have hv0 : v 0 = 0 := (mul_eq_zero.mp h2).resolve_right hnu
  exact hvne (tridiag_eigenvector_zero a b hb μ v hv hv0)

/-- Parseval-type identity used for the weight sum: for `n` pairwise
orthogonal vectors with nonzero norms in n-space, the squares of the first
components, each divided by the vector's squared norm, sum to one. -/
theorem sum_first_sq_div_norm2 [NeZero n] (vecs : Fin n → Fin n → α)
    (horth : ∀ i j, i ≠ j → Matrix.dotProduct (vecs i) (vecs j) = 0)
    (hN : ∀ i, norm2 (vecs i) ≠ 0) :
    ∑ i, (vecs i 0) ^ 2 / norm2 (vecs i) = 1 := by
  have hBW : (Matrix.of fun i r => vecs i r / norm2 (vecs i))
      * (Matrix.of fun r i => vecs i r) = 1 := by
    ext i j
    rw [Matrix.mul_apply]
    have hsum : ∀ r : Fin n, (Matrix.of fun i r => vecs i r / norm2 (vecs i)) i r
        * (Matrix.of fun r i => vecs i r) r j
        = vecs i r * vecs j r / norm2 (vecs i) := by
      intro r
      rw [Matrix.of_apply, Matrix.of_apply, div_mul_eq_mul_div]
    rw [Finset.sum_congr rfl fun r _ => hsum r, ← Finset.sum_div]
    rcases eq_or_ne i j with h1 | h1
    · subst h1
      rw [show (∑ r, vecs i r * vecs i r) = norm2 (vecs i) from
          dotProduct_self_eq_norm2 (vecs i), div_self (hN i), Matrix.one_apply_eq]
    · rw [show (∑ r, vecs i r * vecs j r) = Matrix.dotProduct (vecs i) (vecs j) from rfl,
        horth i j h1, zero_div, Matrix.one_apply_ne h1]
  have hWB : (Matrix.of fun r i => vecs i r)
      * (Matrix.of fun i r => vecs i r / norm2 (vecs i)) = 1 :=
    Matrix.mul_eq_one_comm.mpr hBW
  calc ∑ i, (vecs i 0) ^ 2 / norm2 (vecs i)
      = ∑ i, (Matrix.of fun r i => vecs i r) 0 i
          * (Matrix.of fun i r => vecs i r / norm2 (vecs i)) i 0 := by
        refine Finset.sum_congr rfl fun i _ => ?_
        rw [Matrix.of_apply, Matrix.of_apply, pow_two, mul_div_assoc]
    _ = ((Matrix.of fun r i => vecs i r)
          * (Matrix.of fun i r => vecs i r / norm2 (vecs i))) 0 0 :=
        (Matrix.mul_apply).symm
    _ = (1 : Matrix (Fin n) (Fin n) α) 0 0 := by rw [hWB]
    _ = 1 := Matrix.one_apply_eq 0


theorem OrthonormalEigendata.vec_ne_zero {T : Matrix (Fin n) (Fin n) α}
    {d : Fin n → α} {vecs : Fin n → Fin n → α}
    (h : OrthonormalEigendata T d vecs) (i : Fin n) : vecs i ≠ 0 := by
  intro h0
  have h1 := h.2.1 i i
  rw [if_pos rfl, h0, Matrix.zero_dotProduct] at h1
  exact zero_ne_one h1

theorem OrthonormalEigendata.norm2_one {T : Matrix (Fin n) (Fin n) α}
    {d : Fin n → α} {vecs : Fin n → Fin n → α}
    (h : OrthonormalEigendata T d vecs) (i : Fin n) : norm2 (vecs i) = 1 := by
  rw [← dotProduct_self_eq_norm2, h.2.1 i i, if_pos rfl]

/-- The eigenvalues delivered by an orthonormal eigensolver run on a Jacobi
matrix with strictly positive `beta[k]` (`k ≥ 1`) are strictly increasing:
ascending by contract, and pairwise distinct because the matrix has no
repeated eigenvalue. -/
theorem OrthonormalEigendata.strictMono_of_jacobi [NeZero n] {sqrt : α → α}
    {alpha beta : Fin n → α} {d : Fin n → α} {vecs : Fin n → Fin n → α}
    (h : OrthonormalEigendata (jacobi_matrix sqrt alpha beta) d vecs)
    (hβ : ∀ k : Fin n, 0 < (k : ℕ) → 0 < beta k)
    (hsqrt : ∀ y : α, 0 < y → sqrt y ≠ 0) : StrictMono d := by
  have hb : ∀ k : Fin n, 0 < (k : ℕ) → (fun k => sqrt (beta k)) k ≠ 0 :=
    fun k hk => hsqrt _ (hβ k hk)
  refine h.2.2.strictMono_of_injective ?_
  intro i j hdij
  by_contra hij
  exact tridiag_no_repeated_eigenvalue alpha (fun k => sqrt (beta k)) hb (d i)
    (vecs i) (vecs j) (h.1 i)
    (by
      show (jacobi_matrix sqrt alpha beta).mulVec (vecs j) = d i • vecs j
      rw [h.1 j, hdij])
    (h.vec_ne_zero i) (h.vec_ne_zero j) (by rw [h.2.1 i j, if_neg hij])

/-- The sympy backend as an `Except.map` over the item loop. -/
theorem gauss_sympy_eq_map [NeZero n] (sqrt : α → α) (sv : Solvers α n)
    (alpha beta : Fin n → α) :
    gauss_from_coefficients_sympy sqrt sv alpha beta =
      (processItems (beta 0)
          (sv.eigenvects (sympy_tridiag alpha (fun k => sqrt (beta k))))).map
        (fun pairs => ((List.insertionSort pairLE pairs).map Prod.fst,
          (List.insertionSort pairLE pairs).map Prod.snd)) := by
  unfold gauss_from_coefficients_sympy
  cases processItems (beta 0)
      (sv.eigenvects (sympy_tridiag alpha (fun k => sqrt (beta k)))) with
  | error e => rfl
  | ok pairs => rfl

/-- Replacing `beta[0]` does not change the tridiagonal matrix: the
off-diagonal reads only `beta[k]` for `k ≥ 1`. -/
theorem sympy_tridiag_update [NeZero n] (sqrt : α → α) (alpha beta : Fin n → α)
    (c : α) :
    sympy_tridiag alpha (fun k => sqrt (Function.update beta 0 c k))
      = sympy_tridiag alpha (fun k => sqrt (beta k)) := by
  ext i j
  simp only [sympy_tridiag, Matrix.of_apply]
  rcases eq_or_ne i j with h1 | h1
  · simp [h1]
  · rw [if_neg h1, if_neg h1]
    rcases eq_or_ne ((j : ℕ)) ((i : ℕ) + 1) with h2 | h2
    · have hj0 : j ≠ 0 := fun hj => by
        rw [hj, Fin.val_zero'] at h2
        omega
      rw [if_pos h2, if_pos h2, Function.update_noteq hj0]
    · rcases eq_or_ne ((i : ℕ)) ((j : ℕ) + 1) with h3 | h3
      · have hi0 : i ≠ 0 := fun hi => by
          rw [hi, Fin.val_zero'] at h3
          omega
        rw [if_neg h2, if_pos h3, if_neg h2, if_pos h3, Function.update_noteq hi0]
      · rw [if_neg h2, if_neg h3, if_neg h2, if_neg h3]

/-- Replacing `beta[0]` does not change the off-diagonal vector that the
mpmath backend feeds to `tridiag_eigen`. -/
theorem mpmath_offdiag_update [NeZero n] (sqrt : α → α) (beta : Fin n → α)
    (c : α) :
    mpmath_offdiag sqrt (Function.update beta 0 c) = mpmath_offdiag sqrt beta := by
  funext i
  unfold mpmath_offdiag
  by_cases h : (i : ℕ) + 1 < n
  · rw [dif_pos h, dif_pos h, Function.update_noteq]
    intro hj
    have h2 : (i : ℕ) + 1 = ((0 : Fin n) : ℕ) := congrArg Fin.val hj
    rw [Fin.val_zero'] at h2
    omega
  · rw [dif_neg h, dif_neg h]

theorem pairOf_fst [NeZero n] (beta0 : α) (it : EigItem α n) :
    (pairOf beta0 it).1 = it.val := by
  unfold pairOf
  rcases it.vecs with _ | ⟨v, _ | ⟨v2, tl⟩⟩ <;> rfl

theorem pairOf_eq_of_singleton [NeZero n] (beta0 : α) (it : EigItem α n)
    (v : Fin n → α) (hv : it.vecs = [v]) :
    pairOf beta0 it = (it.val, beta0 * v 0 ^ 2 / norm2 v) := by
  unfold pairOf
  rw [hv]

/-- A list of pairs that is sorted by first component and has pairwise
distinct first components has strictly increasing first components. -/
theorem pairwise_lt_of_sorted_ne (l : List (α × α))
    (hs : l.Sorted (pairLE (α := α)))
    (hne : (l.map Prod.fst).Pairwise (· ≠ ·)) :
    (l.map Prod.fst).Pairwise (· < ·) := by
  have hle : (l.map Prod.fst).Pairwise (· ≤ ·) := by
    rw [List.pairwise_map]
    exact hs
  exact (hle.and hne).imp fun h => lt_of_le_of_ne h.1 h.2

/-- When all multiplicities are one, the number of items equals the sum of
the multiplicities. -/
theorem length_eq_of_mult_sum (items : List (EigItem α n))
    (hone : ∀ it ∈ items, it.mult = 1) :
    items.length = (items.map EigItem.mult).sum := by
  induction items with
  | nil => rfl
  | cons it rest ih =>
    have h1 : it.mult = 1 := hone it (List.mem_cons_self it rest)
    simp only [List.length_cons, List.map_cons, List.sum_cons, h1,
      ih fun it' h' => hone it' (List.mem_cons_of_mem it h')]
    omega

/-- On the 1×1 fixture, the sympy eigenvects item is a genuine eigenpair of
the Jacobi matrix. -/
theorem triv_heig : ∀ it ∈ trivSolvers.eigenvects (jacobi_matrix id qzero qone),
    ∀ v ∈ it.vecs, (jacobi_matrix id qzero qone).mulVec v = it.val • v
      ∧ v ≠ 0 := by
  intro it hit v hv
  have hit' : it = ⟨0, 1, [fun _ => 1]⟩ := List.mem_singleton.mp hit
  subst hit'
  have hv' : v = fun _ => 1 := List.mem_singleton.mp hv
  subst hv'
  refine ⟨?_, ?_⟩
  · funext i
    have hi : i = 0 := Subsingleton.elim i 0
    subst hi
    simp [jacobi_matrix, sympy_tridiag, Matrix.mulVec, Matrix.dotProduct, qzero]
  · intro h
    exact one_ne_zero (congrFun h 0)

/-- On the 1×1 fixture, the item eigenvalues are pairwise distinct. -/
theorem triv_hdist : ((trivSolvers.eigenvects (jacobi_matrix id qzero qone)).map
    EigItem.val).Pairwise (· ≠ ·) := by
  simp [trivSolvers]

/-- On the 1×1 fixture, the item multiplicities sum to the dimension. -/
theorem triv_hcount : ((trivSolvers.eigenvects (jacobi_matrix id qzero qone)).map
    EigItem.mult).sum = 1 := by
  decide

/-- On the 1×1 fixture, the `tridiag_eigen` output is an orthonormal
eigendecomposition of the Jacobi matrix, with eigenvector `(1)`. -/
theorem triv_hmp : OrthonormalEigendata (jacobi_matrix id qzero qone)
    (trivSolvers.tridiag_eigen 3 qzero (mpmath_offdiag id qone) mpmath_zrow).1
    (fun _ _ => (1 : ℚ)) := by
  refine ⟨?_, ?_, ?_⟩
  · intro i
    funext r
    have hr : r = 0 := Subsingleton.elim r 0
    subst hr
    simp [jacobi_matrix, sympy_tridiag, Matrix.mulVec, Matrix.dotProduct,
      trivSolvers, qzero]
  · intro i j
    have hi : i = 0 := Subsingleton.elim i 0
    have hj : j = 0 := Subsingleton.elim j 0
    subst hi
    subst hj
    simp [Matrix.dotProduct]
  · intro a b _
    exact le_of_eq rfl

/-- On the 1×1 fixture, the `z` row returned by `tridiag_eigen` holds the
eigenvectors' first components. -/
theorem triv_hz : ∀ i : Fin 1,
    (trivSolvers.tridiag_eigen 3 qzero (mpmath_offdiag id qone) mpmath_zrow).2 i
      = (fun _ _ => (1 : ℚ)) i 0 := by
  intro i
  have hi : i = 0 := Subsingleton.elim i 0
  subst hi
  rfl

/-- On the 1×1 fixture, the `eig_banded` output is an orthonormal
eigendecomposition of the Jacobi matrix. -/
theorem triv_hnp : OrthonormalEigendata (jacobi_matrix id qzero qone)
    (trivSolvers.eig_banded (numpy_band id qzero qone)).1
    (fun i r => (trivSolvers.eig_banded (numpy_band id qzero qone)).2 r i) := by
  refine ⟨?_, ?_, ?_⟩
  · intro i
    funext r
    have hr : r = 0 := Subsingleton.elim r 0
    subst hr
    have hi : i = 0 := Subsingleton.elim i 0
    subst hi
    simp [jacobi_matrix, sympy_tridiag, Matrix.mulVec, Matrix.dotProduct,
      trivSolvers, qzero, Matrix.one_apply]
  · intro i j
    have hi : i = 0 := Subsingleton.elim i 0
    have hj : j = 0 := Subsingleton.elim j 0
    subst hi
    subst hj
    simp [Matrix.dotProduct, trivSolvers, Matrix.one_apply]
  · intro a b _
    exact le_of_eq rfl

/-- The trivial positivity facts of the 1×1 fixture coefficients. -/
theorem triv_hbeta : (0 < qone 0) ∧ (∀ k : Fin 1, 0 < (k : ℕ) → 0 < qone k)
    ∧ (∀ y : ℚ, 0 < y → id y ≠ 0) :=
  ⟨by decide, by decide, fun y hy => ne_of_gt hy⟩

/-- Claim C9: for every backend selector outside the recognized set
{sympy, mpmath, numpy} the entry point `custom` fails at dispatch with the
UnsupportedBackend assertion error, independently of all other inputs and
before any backend computation; for each recognized selector it dispatches to
exactly the corresponding backend. -/
theorem C9_custom_dispatch [NeZero n] (sqrt : α → α) (sv : Solvers α n)
    (alpha beta : Fin n → α) (mode : String) (dp st : ℕ)
    (hmode : mode ∉ (["sympy", "mpmath", "numpy"] : List String)) :
    custom sqrt sv alpha beta mode dp st
        = .error "UnsupportedBackend: assert mode == numpy failed"
      ∧ custom sqrt sv alpha beta "sympy" dp st
        = (gauss_from_coefficients_sympy sqrt sv alpha beta).map (fun xw => (xw, st))
      ∧ custom sqrt sv alpha beta "mpmath" dp st
        = .ok (gauss_from_coefficients_mpmath sqrt sv alpha beta dp st)
      ∧ custom sqrt sv alpha beta "numpy" dp st
        = .ok (gauss_from_coefficients_numpy sqrt sv alpha beta, st) := by
  have h1 : mode ≠ "sympy" := fun h => hmode (by rw [h]; simp)
  have h2 : mode ≠ "mpmath" := fun h => hmode (by rw [h]; simp)
  have h3 : mode ≠ "numpy" := fun h => hmode (by rw [h]; simp)
  refine ⟨?_, ?_, rfl, rfl⟩
  · unfold custom
    rw [if_neg h1, if_neg h2, if_neg h3]
  · cases h : gauss_from_coefficients_sympy sqrt sv alpha beta with
    | error e => simp [custom, h, Except.map]
    | ok xw => simp [custom, h, Except.map]

/-- Claim C6: the arbitrary-precision backend takes `decimal_places` in its
argument list, overwrites the process-wide mpmath precision state with it at
call entry, hands exactly that precision to the eigensolver call, and leaves
the state at `decimal_places` afterwards — the previous state value neither
influences the result nor is restored. -/
theorem C6_mpmath_precision_state [NeZero n] (sqrt : α → α) (sv : Solvers α n)
    (alpha beta : Fin n → α) (dp dps0 dps1 : ℕ) :
    gauss_from_coefficients_mpmath sqrt sv alpha beta dp dps0
        = ((List.ofFn
              (sv.tridiag_eigen dp alpha (mpmath_offdiag sqrt beta) mpmath_zrow).1,
            List.ofFn fun i => beta 0 *
              (sv.tridiag_eigen dp alpha (mpmath_offdiag sqrt beta) mpmath_zrow).2 i
                ^ 2), dp)
      ∧ gauss_from_coefficients_mpmath sqrt sv alpha beta dp dps0
        = gauss_from_coefficients_mpmath sqrt sv alpha beta dp dps1
      ∧ (gauss_from_coefficients_mpmath sqrt sv alpha beta dp dps0).2 = dp
      ∧ custom sqrt sv alpha beta "mpmath" dp dps0
        = .ok (gauss_from_coefficients_mpmath sqrt sv alpha beta dp dps0) :=
  ⟨rfl, rfl, rfl, rfl⟩

/-- Claim C5: in every backend the matrix consumed by the eigensolver is the
symmetric tridiagonal matrix with diagonal `alpha` and off-diagonals
`sqrt(beta[k])` for `k = 1..n-1`; `beta[0]` contributes no matrix entry
(replacing it changes neither the sympy matrix, the matrix scipy reads from
the band array, nor the mpmath off-diagonal vector) and enters each backend's
output only as the scale factor of the weights. -/
theorem C5_jacobi_matrix_structure [NeZero n] (sqrt : α → α)
    (alpha beta : Fin n → α) (c : α) :
    (∀ i : Fin n, sympy_tridiag alpha (fun k => sqrt (beta k)) i i = alpha i)
      ∧ (∀ i : Fin n, ∀ h : (i : ℕ) + 1 < n,
          sympy_tridiag alpha (fun k => sqrt (beta k)) i ⟨(i : ℕ) + 1, h⟩
              = sqrt (beta ⟨(i : ℕ) + 1, h⟩)
            ∧ sympy_tridiag alpha (fun k => sqrt (beta k)) ⟨(i : ℕ) + 1, h⟩ i
              = sqrt (beta ⟨(i : ℕ) + 1, h⟩))
      ∧ (∀ i j : Fin n, ¬(i = j) → ¬((j : ℕ) = (i : ℕ) + 1) →
          ¬((i : ℕ) = (j : ℕ) + 1) →
          sympy_tridiag alpha (fun k => sqrt (beta k)) i j = 0)
      ∧ band_matrix (numpy_band sqrt alpha beta)
          = sympy_tridiag alpha (fun k => sqrt (beta k))
      ∧ (∀ i : Fin n, ∀ h : (i : ℕ) + 1 < n,
          mpmath_offdiag sqrt beta i = sqrt (beta ⟨(i : ℕ) + 1, h⟩))
      ∧ sympy_tridiag alpha (fun k => sqrt (Function.update beta 0 c k))
          = sympy_tridiag alpha (fun k => sqrt (beta k))
      ∧ band_matrix (numpy_band sqrt alpha (Function.update beta 0 c))
          = band_matrix (numpy_band sqrt alpha beta)
      ∧ mpmath_offdiag sqrt (Function.update beta 0 c) = mpmath_offdiag sqrt beta
      ∧ (∀ sv : Solvers α n, ∀ dp st : ℕ,
          gauss_from_coefficients_mpmath sqrt sv alpha (Function.update beta 0 c) dp st
            = ((List.ofFn
                  (sv.tridiag_eigen dp alpha (mpmath_offdiag sqrt beta) mpmath_zrow).1,
                List.ofFn fun i => c *
                  (sv.tridiag_eigen dp alpha (mpmath_offdiag sqrt beta) mpmath_zrow).2 i
                    ^ 2), dp))
      ∧ (∀ sv : Solvers α n,
          gauss_from_coefficients_numpy sqrt sv alpha beta
            = (List.ofFn (sv.eig_banded (numpy_band sqrt alpha beta)).1,
               List.ofFn fun i => beta 0 *
                 (sv.eig_banded (numpy_band sqrt alpha beta)).2 0 i ^ 2))
      ∧ (∀ sv : Solvers α n,
          gauss_from_coefficients_sympy sqrt sv alpha (Function.update beta 0 c)
            = (processItems c
                (sv.eigenvects (sympy_tridiag alpha (fun k => sqrt (beta k))))).map
              (fun pairs => ((List.insertionSort pairLE pairs).map Prod.fst,
                (List.insertionSort pairLE pairs).map Prod.snd))) := by
  refine ⟨?_, ?_, ?_, band_matrix_numpy_band sqrt alpha beta, ?_,
    sympy_tridiag_update sqrt alpha beta c, ?_,
    mpmath_offdiag_update sqrt beta c, ?_, ?_, ?_⟩
  · intro i
    simp [sympy_tridiag]
  · intro i h
    have hne : i ≠ ⟨(i : ℕ) + 1, h⟩ := by
      intro he
      have hval : (i : ℕ) = (i : ℕ) + 1 := congrArg Fin.val he
      omega
    constructor
    · simp only [sympy_tridiag, Matrix.of_apply]
      rw [if_neg hne]
      simp
    · simp only [sympy_tridiag, Matrix.of_apply]
      rw [if_neg (Ne.symm hne),
        if_neg (show ¬ ((i : ℕ) = (i : ℕ) + 1 + 1) by omega)]
      simp
  · intro i j h1 h2 h3
    simp only [sympy_tridiag, Matrix.of_apply]
    rw [if_neg h1, if_neg h2, if_neg h3]
  · intro i h
    unfold mpmath_offdiag
    rw [dif_pos h]
  · rw [band_matrix_numpy_band, band_matrix_numpy_band, sympy_tridiag_update]
  · intro sv dp st
    unfold gauss_from_coefficients_mpmath
    rw [mpmath_offdiag_update, Function.update_same]
  · intro sv
    rfl
  · intro sv
    rw [gauss_sympy_eq_map, Function.update_same, sympy_tridiag_update]

/-- The sum of a mapped list as a sum over its index type. -/
theorem map_sum_eq_sum_get {β : Type*} (l : List β) (f : β → α) :
    (l.map f).sum = ∑ i : Fin l.length, f (l.get i) := by
  calc (l.map f).sum = ((List.ofFn l.get).map f).sum := by rw [List.ofFn_get]
    _ = (List.ofFn (f ∘ l.get)).sum := by rw [List.map_ofFn]
    _ = ∑ i, (f ∘ l.get) i := List.sum_ofFn
    _ = ∑ i, f (l.get i) := rfl

/-- Unpacking a successful run of `custom` in sympy mode: the item loop
succeeded on some pair list and the output is its stable sort, split into
nodes and weights. -/
theorem custom_sympy_ok_unpack [NeZero n] (sqrt : α → α) (sv : Solvers α n)
    (alpha beta : Fin n → α) (dp st : ℕ) (x w : List α) (st' : ℕ)
    (hok : custom sqrt sv alpha beta "sympy" dp st = .ok ((x, w), st')) :
    ∃ pairs, processItems (beta 0)
        (sv.eigenvects (sympy_tridiag alpha (fun k => sqrt (beta k)))) = .ok pairs
      ∧ x = (List.insertionSort pairLE pairs).map Prod.fst
      ∧ w = (List.insertionSort pairLE pairs).map Prod.snd := by
  have hmode : custom sqrt sv alpha beta "sympy" dp st
      = (gauss_from_coefficients_sympy sqrt sv alpha beta).map
          (fun xw => (xw, st)) := by
    cases h : gauss_from_coefficients_sympy sqrt sv alpha beta with
    | error e => simp [custom, h, Except.map]
    | ok xw => simp [custom, h, Except.map]
  rw [hmode, gauss_sympy_eq_map] at hok
  cases hp : processItems (beta 0)
      (sv.eigenvects (sympy_tridiag alpha (fun k => sqrt (beta k)))) with
  | error e =>
    rw [hp] at hok
    exact absurd hok (by simp [Except.map])
  | ok pairs =>
    rw [hp] at hok
    simp only [Except.map, Except.ok.injEq, Prod.mk.injEq] at hok
    exact ⟨pairs, rfl, hok.1.1.symm, hok.1.2.symm⟩

/-- Every pair in the sorted output of a successful sympy item loop is
`(eigenvalue, beta[0]·v[0]²/‖v‖²)` for a nonzero eigenvector `v` of the
tridiagonal matrix. -/
theorem mem_sorted_pairs_spec [NeZero n] (sqrt : α → α) (sv : Solvers α n)
    (alpha beta : Fin n → α)
    (heig : ∀ it ∈ sv.eigenvects (sympy_tridiag alpha (fun k => sqrt (beta k))),
      ∀ v ∈ it.vecs,
        (sympy_tridiag alpha (fun k => sqrt (beta k))).mulVec v = it.val • v
          ∧ v ≠ 0)
    {pairs : List (α × α)}
    (hp : processItems (beta 0)
      (sv.eigenvects (sympy_tridiag alpha (fun k => sqrt (beta k)))) = .ok pairs)
    {p : α × α} (hps : p ∈ List.insertionSort pairLE pairs) :
    ∃ v : Fin n → α, v ≠ 0
      ∧ (sympy_tridiag alpha (fun k => sqrt (beta k))).mulVec v = p.1 • v
      ∧ p.2 = beta 0 * v 0 ^ 2 / norm2 v := by
  obtain ⟨hall, hpairs⟩ := (processItems_ok_iff _ _ _).mp hp
  have hpp : p ∈ pairs := (List.perm_insertionSort pairLE pairs).mem_iff.mp hps
  rw [hpairs] at hpp
  obtain ⟨it, hit, hpe⟩ := List.mem_map.mp hpp
  obtain ⟨v, hv⟩ := (hall it hit).2
  have hpeq := (pairOf_eq_of_singleton (beta 0) it v hv) ▸ hpe
  obtain ⟨hmv, hvne⟩ := heig it hit v (by rw [hv]; exact List.mem_singleton_self v)
  refine ⟨v, hvne, ?_, ?_⟩
  · rw [← hpeq]
    exact hmv
  · rw [← hpeq]

/-- Claim C4: the sympy backend fails (with the DegenerateSpectrum assertion)
exactly when some eigenvalue's algebraic multiplicity differs from 1 — under
sympy's structural guarantee that each item carries between 1 and
`multiplicity` basis vectors — and the other two backends never perform such
a check: they return normally on every input. -/
theorem C4_sympy_degenerate_spectrum [NeZero n] (sqrt : α → α) (sv : Solvers α n)
    (alpha beta : Fin n → α)
    (hlen : ∀ it ∈ sv.eigenvects (sympy_tridiag alpha (fun k => sqrt (beta k))),
      1 ≤ it.vecs.length ∧ it.vecs.length ≤ it.mult) :
    ((∃ e, gauss_from_coefficients_sympy sqrt sv alpha beta = .error e) ↔
        ∃ it ∈ sv.eigenvects (sympy_tridiag alpha (fun k => sqrt (beta k))),
          it.mult ≠ 1)
      ∧ (∀ dp st : ℕ, ∃ r, custom sqrt sv alpha beta "mpmath" dp st = .ok r)
      ∧ (∀ dp st : ℕ, ∃ r, custom sqrt sv alpha beta "numpy" dp st = .ok r) := by
  refine ⟨?_, fun dp st => ⟨_, rfl⟩, fun dp st => ⟨_, rfl⟩⟩
  constructor
  · rintro ⟨e, he⟩
    rw [gauss_sympy_eq_map] at he
    cases hp : processItems (beta 0)
        (sv.eigenvects (sympy_tridiag alpha (fun k => sqrt (beta k)))) with
    | ok pairs =>
      rw [hp] at he
      exact absurd he (by simp [Except.map])
    | error e' =>
      have herr := (processItems_error_iff (beta 0) _).mp ⟨e', hp⟩
      by_contra hno
      push_neg at hno
      apply herr
      intro it hit
      refine ⟨hno it hit, ?_⟩
      have hl := hlen it hit
      have hl1 : it.vecs.length = 1 :=
        le_antisymm (le_trans hl.2 (le_of_eq (hno it hit))) hl.1
      exact List.length_eq_one.mp hl1
  · rintro ⟨it, hit, hmult⟩
    have hnot : ¬ (∀ it' ∈ sv.eigenvects
        (sympy_tridiag alpha (fun k => sqrt (beta k))),
          it'.mult = 1 ∧ ∃ v, it'.vecs = [v]) :=
      fun hall => hmult (hall it hit).1
    obtain ⟨e, he⟩ := (processItems_error_iff (beta 0) _).mpr hnot
    refine ⟨e, ?_⟩
    rw [gauss_sympy_eq_map, he]
    rfl

/-- Claim C1: for every coefficient input and every backend, `custom` returns
nodes that are eigenvalues of the Jacobi matrix built from `(alpha, beta)`
and weights `beta[0]` times the squared first component of the corresponding
normalized eigenvector — stated against the documented contracts of the
external eigensolvers (sympy's `eigenvects` items are eigenpairs; the numeric
solvers return ascending eigenvalues with orthonormal eigenvectors, the
mpmath row `z` holding the eigenvectors' first components).  With unit-norm
eigenvectors the weight is `beta[0]·v[0]²`; the sympy backend's unnormalized
basis vector enters as `beta[0]·v[0]²/‖v‖²`. -/
theorem C1_custom_golub_welsch [NeZero n] (sqrt : α → α) (sv : Solvers α n)
    (alpha beta : Fin n → α) (dp st : ℕ) (vecsM : Fin n → Fin n → α)
    (heig : ∀ it ∈ sv.eigenvects (jacobi_matrix sqrt alpha beta), ∀ v ∈ it.vecs,
      (jacobi_matrix sqrt alpha beta).mulVec v = it.val • v ∧ v ≠ 0)
    (hmp : OrthonormalEigendata (jacobi_matrix sqrt alpha beta)
      (sv.tridiag_eigen dp alpha (mpmath_offdiag sqrt beta) mpmath_zrow).1 vecsM)
    (hz : ∀ i, (sv.tridiag_eigen dp alpha (mpmath_offdiag sqrt beta) mpmath_zrow).2 i
      = vecsM i 0)
    (hnp : OrthonormalEigendata (jacobi_matrix sqrt alpha beta)
      (sv.eig_banded (numpy_band sqrt alpha beta)).1
      (fun i r => (sv.eig_banded (numpy_band sqrt alpha beta)).2 r i)) :
    (∀ x w : List α, ∀ st' : ℕ,
      custom sqrt sv alpha beta "sympy" dp st = .ok ((x, w), st') →
      ∃ s : List (α × α),
        s.Perm ((sv.eigenvects (jacobi_matrix sqrt alpha beta)).map
          (pairOf (beta 0)))
        ∧ x = s.map Prod.fst ∧ w = s.map Prod.snd
        ∧ ∀ p ∈ s, ∃ v : Fin n → α, v ≠ 0
            ∧ (jacobi_matrix sqrt alpha beta).mulVec v = p.1 • v
            ∧ p.2 = beta 0 * v 0 ^ 2 / norm2 v)
      ∧ (custom sqrt sv alpha beta "mpmath" dp st
          = .ok ((List.ofFn
                (sv.tridiag_eigen dp alpha (mpmath_offdiag sqrt beta) mpmath_zrow).1,
              List.ofFn fun i => beta 0 * vecsM i 0 ^ 2), dp)
          ∧ ∀ i, (jacobi_matrix sqrt alpha beta).mulVec (vecsM i)
              = (sv.tridiag_eigen dp alpha (mpmath_offdiag sqrt beta) mpmath_zrow).1 i
                  • vecsM i
            ∧ vecsM i ≠ 0 ∧ norm2 (vecsM i) = 1)
      ∧ (custom sqrt sv alpha beta "numpy" dp st
          = .ok ((List.ofFn (sv.eig_banded (numpy_band sqrt alpha beta)).1,
              List.ofFn fun i => beta 0 *
                (sv.eig_banded (numpy_band sqrt alpha beta)).2 0 i ^ 2), st)
          ∧ ∀ i, (jacobi_matrix sqrt alpha beta).mulVec
                (fun r => (sv.eig_banded (numpy_band sqrt alpha beta)).2 r i)
              = (sv.eig_banded (numpy_band sqrt alpha beta)).1 i
                  • (fun r => (sv.eig_banded (numpy_band sqrt alpha beta)).2 r i)
            ∧ (fun r => (sv.eig_banded (numpy_band sqrt alpha beta)).2 r i) ≠ 0
            ∧ norm2 (fun r => (sv.eig_banded (numpy_band sqrt alpha beta)).2 r i)
                = 1) := by
  refine ⟨?_, ⟨?_, fun i => ⟨hmp.1 i, hmp.vec_ne_zero i, hmp.norm2_one i⟩⟩,
    rfl, fun i => ⟨hnp.1 i, hnp.vec_ne_zero i, hnp.norm2_one i⟩⟩
  · intro x w st' hok
    obtain ⟨pairs, hp, hx, hw⟩ :=
      custom_sympy_ok_unpack sqrt sv alpha beta dp st x w st' hok
    obtain ⟨hall, hpairs⟩ := (processItems_ok_iff _ _ _).mp hp
    refine ⟨List.insertionSort pairLE pairs, ?_, hx, hw, ?_⟩
    · show (List.insertionSort pairLE pairs).Perm
        ((sv.eigenvects (sympy_tridiag alpha (fun k => sqrt (beta k)))).map
          (pairOf (beta 0)))
      rw [← hpairs]
      exact List.perm_insertionSort pairLE pairs
    · intro p hps
      exact mem_sorted_pairs_spec sqrt sv alpha beta heig hp hps
  · have hfn : (fun i => beta 0 *
        (sv.tridiag_eigen dp alpha (mpmath_offdiag sqrt beta) mpmath_zrow).2 i ^ 2)
        = (fun i => beta 0 * vecsM i 0 ^ 2) := funext fun i => by rw [hz i]
    calc custom sqrt sv alpha beta "mpmath" dp st
        = .ok ((List.ofFn
              (sv.tridiag_eigen dp alpha (mpmath_offdiag sqrt beta) mpmath_zrow).1,
            List.ofFn fun i => beta 0 *
              (sv.tridiag_eigen dp alpha (mpmath_offdiag sqrt beta) mpmath_zrow).2 i
                ^ 2), dp) := rfl
      _ = .ok ((List.ofFn
              (sv.tridiag_eigen dp alpha (mpmath_offdiag sqrt beta) mpmath_zrow).1,
            List.ofFn fun i => beta 0 * vecsM i 0 ^ 2), dp) := by rw [hfn]

/-- Claim C2: for well-formed coefficients (`beta[k] > 0` for `k ≥ 1`) and
each backend, the returned nodes are pairwise distinct and strictly
ascending, with weights aligned by index to their nodes — under the solver
contracts (sympy's `eigenvects` lists eigenpairs with pairwise distinct
eigenvalues; the numeric solvers return ascending eigenvalues with
orthonormal eigenvectors).  Strictness holds because the Jacobi matrix with
positive `beta[k]` has no repeated eigenvalue. -/
theorem C2_nodes_distinct_ascending [NeZero n] (sqrt : α → α) (sv : Solvers α n)
    (alpha beta : Fin n → α) (dp st : ℕ) (vecsM : Fin n → Fin n → α)
    (hβ : ∀ k : Fin n, 0 < (k : ℕ) → 0 < beta k)
    (hsqrt : ∀ y : α, 0 < y → sqrt y ≠ 0)
    (heig : ∀ it ∈ sv.eigenvects (jacobi_matrix sqrt alpha beta), ∀ v ∈ it.vecs,
      (jacobi_matrix sqrt alpha beta).mulVec v = it.val • v ∧ v ≠ 0)
    (hdist : ((sv.eigenvects (jacobi_matrix sqrt alpha beta)).map
      EigItem.val).Pairwise (· ≠ ·))
    (hmp : OrthonormalEigendata (jacobi_matrix sqrt alpha beta)
      (sv.tridiag_eigen dp alpha (mpmath_offdiag sqrt beta) mpmath_zrow).1 vecsM)
    (hz : ∀ i, (sv.tridiag_eigen dp alpha (mpmath_offdiag sqrt beta) mpmath_zrow).2 i
      = vecsM i 0)
    (hnp : OrthonormalEigendata (jacobi_matrix sqrt alpha beta)
      (sv.eig_banded (numpy_band sqrt alpha beta)).1
      (fun i r => (sv.eig_banded (numpy_band sqrt alpha beta)).2 r i)) :
    (∀ x w : List α, ∀ st' : ℕ,
      custom sqrt sv alpha beta "sympy" dp st = .ok ((x, w), st') →
        x.Pairwise (· < ·)
        ∧ ∃ s : List (α × α), x = s.map Prod.fst ∧ w = s.map Prod.snd
          ∧ ∀ p ∈ s, ∃ v : Fin n → α, v ≠ 0
              ∧ (jacobi_matrix sqrt alpha beta).mulVec v = p.1 • v
              ∧ p.2 = beta 0 * v 0 ^ 2 / norm2 v)
      ∧ (StrictMono
            (sv.tridiag_eigen dp alpha (mpmath_offdiag sqrt beta) mpmath_zrow).1
          ∧ (List.ofFn
              (sv.tridiag_eigen dp alpha (mpmath_offdiag sqrt beta)
                mpmath_zrow).1).Pairwise (· < ·)
          ∧ custom sqrt sv alpha beta "mpmath" dp st
            = .ok ((List.ofFn
                  (sv.tridiag_eigen dp alpha (mpmath_offdiag sqrt beta)
                    mpmath_zrow).1,
                List.ofFn fun i => beta 0 * vecsM i 0 ^ 2), dp))
      ∧ (StrictMono (sv.eig_banded (numpy_band sqrt alpha beta)).1
          ∧ (List.ofFn
              (sv.eig_banded (numpy_band sqrt alpha beta)).1).Pairwise (· < ·)
          ∧ custom sqrt sv alpha beta "numpy" dp st
            = .ok ((List.ofFn (sv.eig_banded (numpy_band sqrt alpha beta)).1,
                List.ofFn fun i => beta 0 *
                  (sv.eig_banded (numpy_band sqrt alpha beta)).2 0 i ^ 2), st)) := by
  have hsmM : StrictMono
      (sv.tridiag_eigen dp alpha (mpmath_offdiag sqrt beta) mpmath_zrow).1 :=
    hmp.strictMono_of_jacobi hβ hsqrt
  have hsmN : StrictMono (sv.eig_banded (numpy_band sqrt alpha beta)).1 :=
    hnp.strictMono_of_jacobi hβ hsqrt
  refine ⟨?_,
    ⟨hsmM, List.pairwise_ofFn.mpr fun i j h => hsmM h, ?_⟩,
    ⟨hsmN, List.pairwise_ofFn.mpr fun i j h => hsmN h, rfl⟩⟩
  · intro x w st' hok
    obtain ⟨pairs, hp, hx, hw⟩ :=
      custom_sympy_ok_unpack sqrt sv alpha beta dp st x w st' hok
    obtain ⟨hall, hpairs⟩ := (processItems_ok_iff _ _ _).mp hp
    have hfst : pairs.map Prod.fst
        = (sv.eigenvects (sympy_tridiag alpha (fun k => sqrt (beta k)))).map
            EigItem.val := by
      rw [hpairs, List.map_map]
      exact List.map_congr_left fun it _ => pairOf_fst (beta 0) it
    have hxne : x.Pairwise (· ≠ ·) := by
      rw [hx]
      have hperm := (List.perm_insertionSort pairLE pairs).map Prod.fst
      refine (hperm.pairwise_iff fun h => Ne.symm h).mpr ?_
      rw [hfst]
      exact hdist
    refine ⟨?_, List.insertionSort pairLE pairs, hx, hw, fun p hps =>
      mem_sorted_pairs_spec sqrt sv alpha beta heig hp hps⟩
    rw [hx]
    exact pairwise_lt_of_sorted_ne (List.insertionSort pairLE pairs)
      (List.sorted_insertionSort pairLE pairs) (hx ▸ hxne)
  · have hfn : (fun i => beta 0 *
        (sv.tridiag_eigen dp alpha (mpmath_offdiag sqrt beta) mpmath_zrow).2 i ^ 2)
        = (fun i => beta 0 * vecsM i 0 ^ 2) := funext fun i => by rw [hz i]
    calc custom sqrt sv alpha beta "mpmath" dp st
        = .ok ((List.ofFn
              (sv.tridiag_eigen dp alpha (mpmath_offdiag sqrt beta) mpmath_zrow).1,
            List.ofFn fun i => beta 0 *
              (sv.tridiag_eigen dp alpha (mpmath_offdiag sqrt beta) mpmath_zrow).2 i
                ^ 2), dp) := rfl
      _ = .ok ((List.ofFn
              (sv.tridiag_eigen dp alpha (mpmath_offdiag sqrt beta) mpmath_zrow).1,
            List.ofFn fun i => beta 0 * vecsM i 0 ^ 2), dp) := by rw [hfn]

/-- Claim C3 (amended): for well-formed coefficients with additionally
`beta[0] > 0`, every backend returns strictly positive weights whose sum is
exactly `beta[0]`, under the solver contracts.  The sum identity is the
orthogonality of the eigenvectors: the squared first components of an
orthonormal eigenbasis sum to one. -/
theorem C3_weights_positive_sum_beta0 [NeZero n] (sqrt : α → α)
    (sv : Solvers α n) (alpha beta : Fin n → α) (dp st : ℕ)
    (vecsM : Fin n → Fin n → α)
    (hβ0 : 0 < beta 0)
    (hβ : ∀ k : Fin n, 0 < (k : ℕ) → 0 < beta k)
    (hsqrt : ∀ y : α, 0 < y → sqrt y ≠ 0)
    (heig : ∀ it ∈ sv.eigenvects (jacobi_matrix sqrt alpha beta), ∀ v ∈ it.vecs,
      (jacobi_matrix sqrt alpha beta).mulVec v = it.val • v ∧ v ≠ 0)
    (hdist : ((sv.eigenvects (jacobi_matrix sqrt alpha beta)).map
      EigItem.val).Pairwise (· ≠ ·))
    (hcount : ((sv.eigenvects (jacobi_matrix sqrt alpha beta)).map
      EigItem.mult).sum = n)
    (hmp : OrthonormalEigendata (jacobi_matrix sqrt alpha beta)
      (sv.tridiag_eigen dp alpha (mpmath_offdiag sqrt beta) mpmath_zrow).1 vecsM)
    (hz : ∀ i, (sv.tridiag_eigen dp alpha (mpmath_offdiag sqrt beta) mpmath_zrow).2 i
      = vecsM i 0)
    (hnp : OrthonormalEigendata (jacobi_matrix sqrt alpha beta)
      (sv.eig_banded (numpy_band sqrt alpha beta)).1
      (fun i r => (sv.eig_banded (numpy_band sqrt alpha beta)).2 r i)) :
    (∀ x w : List α, ∀ st' : ℕ,
      custom sqrt sv alpha beta "sympy" dp st = .ok ((x, w), st') →
        (∀ ww ∈ w, 0 < ww) ∧ w.sum = beta 0)
      ∧ ((∀ ww ∈ (gauss_from_coefficients_mpmath sqrt sv alpha beta dp st).1.2,
            0 < ww)
          ∧ (gauss_from_coefficients_mpmath sqrt sv alpha beta dp st).1.2.sum
            = beta 0)
      ∧ ((∀ ww ∈ (gauss_from_coefficients_numpy sqrt sv alpha beta).2, 0 < ww)
          ∧ (gauss_from_coefficients_numpy sqrt sv alpha beta).2.sum
            = beta 0) := by
  have hbne : ∀ k : Fin n, 0 < (k : ℕ) → (fun k => sqrt (beta k)) k ≠ 0 :=
    fun k hk => hsqrt _ (hβ k hk)
  have sq_pos_of_ne : ∀ y : α, y ≠ 0 → 0 < y ^ 2 :=
    fun y hy => lt_of_le_of_ne (sq_nonneg y) (Ne.symm (pow_ne_zero 2 hy))
  refine ⟨?_, ⟨?_, ?_⟩, ⟨?_, ?_⟩⟩
  · -- sympy backend
    intro x w st' hok
    obtain ⟨pairs, hp, hx, hw⟩ :=
      custom_sympy_ok_unpack sqrt sv alpha beta dp st x w st' hok
    obtain ⟨hall, hpairs⟩ := (processItems_ok_iff _ _ _).mp hp
    have heig' : ∀ it ∈ sv.eigenvects
        (sympy_tridiag alpha (fun k => sqrt (beta k))), ∀ v ∈ it.vecs,
        (sympy_tridiag alpha (fun k => sqrt (beta k))).mulVec v = it.val • v
          ∧ v ≠ 0 := heig
    constructor
    · intro ww hww
      rw [hw] at hww
      obtain ⟨p, hps, hpw⟩ := List.mem_map.mp hww
      obtain ⟨v, hvne, hmv, hpw2⟩ :=
        mem_sorted_pairs_spec sqrt sv alpha beta heig hp hps
      rw [← hpw, hpw2]
      have hv0 : v 0 ≠ 0 :=
        tridiag_eigenvector_first_ne_zero alpha (fun k => sqrt (beta k)) hbne
          p.1 v hmv hvne
      exact div_pos (mul_pos hβ0 (sq_pos_of_ne _ hv0)) (norm2_pos v hvne)
    · have hone : ∀ it ∈ sv.eigenvects
          (sympy_tridiag alpha (fun k => sqrt (beta k))), it.mult = 1 :=
        fun it hit => (hall it hit).1
      have hlenn : (sv.eigenvects
          (sympy_tridiag alpha (fun k => sqrt (beta k)))).length = n := by
        rw [length_eq_of_mult_sum _ hone]
        exact hcount
      haveI : Inhabited (Fin n → α) := ⟨0⟩
      set items := sv.eigenvects (sympy_tridiag alpha (fun k => sqrt (beta k)))
        with hitems
      set gv : Fin n → Fin n → α :=
        fun i => ((items.get (Fin.cast hlenn.symm i)).vecs).headI with hgv
      have hmem : ∀ i : Fin n, items.get (Fin.cast hlenn.symm i) ∈ items :=
        fun i => items.get_mem _ _
      have hsingle : ∀ i : Fin n,
          (items.get (Fin.cast hlenn.symm i)).vecs = [gv i] := by
        intro i
        obtain ⟨v, hv⟩ := (hall _ (hmem i)).2
        simp only [hgv]
        rw [hv]
        rfl
      have hgve : ∀ i : Fin n,
          (sympy_tridiag alpha (fun k => sqrt (beta k))).mulVec (gv i)
            = (items.get (Fin.cast hlenn.symm i)).val • gv i ∧ gv i ≠ 0 :=
        fun i => heig' _ (hmem i) (gv i)
          (by rw [hsingle i]; exact List.mem_singleton_self _)
      have hvals : ∀ i j : Fin n, i ≠ j →
          (items.get (Fin.cast hlenn.symm i)).val
            ≠ (items.get (Fin.cast hlenn.symm j)).val := by
        have hpw : items.Pairwise (fun a b => a.val ≠ b.val) :=
          List.pairwise_map.mp hdist
        intro i j hij
        have hij' : Fin.cast hlenn.symm i ≠ Fin.cast hlenn.symm j := by
          intro h
          have h2 := congrArg Fin.val h
          exact hij (Fin.ext h2)
        rcases lt_or_gt_of_ne hij' with hlt | hgt
        · exact List.pairwise_iff_get.mp hpw _ _ hlt
        · exact Ne.symm (List.pairwise_iff_get.mp hpw _ _ hgt)
      have horth : ∀ i j : Fin n, i ≠ j →
          Matrix.dotProduct (gv i) (gv j) = 0 := fun i j hij =>
        eigenvectors_distinct_orthogonal _ (sympy_tridiag_isSymm alpha _)
          _ _ _ _ (hgve i).1 (hgve j).1 (hvals i j hij)
      have hN : ∀ i : Fin n, norm2 (gv i) ≠ 0 :=
        fun i => ne_of_gt (norm2_pos _ (hgve i).2)
      have hterm : ∀ i : Fin n,
          (Prod.snd ∘ pairOf (beta 0)) (items.get (Fin.cast hlenn.symm i))
            = beta 0 * (gv i 0 ^ 2 / norm2 (gv i)) := by
        intro i
        show (pairOf (beta 0) (items.get (Fin.cast hlenn.symm i))).2 = _
        rw [pairOf_eq_of_singleton (beta 0) _ (gv i) (hsingle i)]
        exact mul_div_assoc (beta 0) _ _
      have hpairs_sum : (pairs.map Prod.snd).sum = beta 0 := by
        calc (pairs.map Prod.snd).sum
            = ((items.map (pairOf (beta 0))).map Prod.snd).sum := by rw [hpairs]
          _ = (items.map (Prod.snd ∘ pairOf (beta 0))).sum := by
              rw [List.map_map]
          _ = ∑ i : Fin items.length,
                (Prod.snd ∘ pairOf (beta 0)) (items.get i) :=
              map_sum_eq_sum_get items (Prod.snd ∘ pairOf (beta 0))
          _ = ∑ i : Fin n, (Prod.snd ∘ pairOf (beta 0))
                (items.get (Fin.cast hlenn.symm i)) :=
              Fintype.sum_equiv (finCongr hlenn)
                (fun i => (Prod.snd ∘ pairOf (beta 0)) (items.get i))
                (fun j => (Prod.snd ∘ pairOf (beta 0))
                  (items.get (Fin.cast hlenn.symm j)))
                (fun i => rfl)
          _ = ∑ i : Fin n, beta 0 * (gv i 0 ^ 2 / norm2 (gv i)) :=
              Finset.sum_congr rfl fun i _ => hterm i
          _ = beta 0 * ∑ i : Fin n, gv i 0 ^ 2 / norm2 (gv i) :=
              (Finset.mul_sum _ _ _).symm
          _ = beta 0 * 1 := by rw [sum_first_sq_div_norm2 gv horth hN]
          _ = beta 0 := mul_one _
      rw [hw]
      calc ((List.insertionSort pairLE pairs).map Prod.snd).sum
          = (pairs.map Prod.snd).sum :=
            ((List.perm_insertionSort pairLE pairs).map Prod.snd).sum_eq
        _ = beta 0 := hpairs_sum
  · -- mpmath positivity
    intro ww hww
    replace hww : ww ∈ List.ofFn (fun i => beta 0 *
        (sv.tridiag_eigen dp alpha (mpmath_offdiag sqrt beta) mpmath_zrow).2 i
          ^ 2) := hww
    obtain ⟨i, hi⟩ := Set.mem_range.mp ((List.mem_ofFn _ _).mp hww)
    rw [← hi, hz i]
    have hv0 : vecsM i 0 ≠ 0 :=
      tridiag_eigenvector_first_ne_zero alpha (fun k => sqrt (beta k)) hbne
        _ (vecsM i) (hmp.1 i) (hmp.vec_ne_zero i)
    exact mul_pos hβ0 (sq_pos_of_ne _ hv0)
  · -- mpmath sum
    show (List.ofFn fun i => beta 0 *
        (sv.tridiag_eigen dp alpha (mpmath_offdiag sqrt beta) mpmath_zrow).2 i
          ^ 2).sum = beta 0
    rw [List.sum_ofFn]
    have hterm : ∀ i : Fin n,
        beta 0 * (sv.tridiag_eigen dp alpha (mpmath_offdiag sqrt beta)
            mpmath_zrow).2 i ^ 2
          = beta 0 * (vecsM i 0 ^ 2 / norm2 (vecsM i)) := by
      intro i
      rw [hz i, hmp.norm2_one i, div_one]
    rw [Finset.sum_congr rfl fun i _ => hterm i, ← Finset.mul_sum,
      sum_first_sq_div_norm2 vecsM
        (fun i j hij => by rw [hmp.2.1 i j, if_neg hij])
        (fun i => by rw [hmp.norm2_one i]; exact one_ne_zero),
      mul_one]
  · -- numpy positivity
    intro ww hww
    replace hww : ww ∈ List.ofFn (fun i => beta 0 *
        (sv.eig_banded (numpy_band sqrt alpha beta)).2 0 i ^ 2) := hww
    obtain ⟨i, hi⟩ := Set.mem_range.mp ((List.mem_ofFn _ _).mp hww)
    rw [← hi]
    have hv0 : (fun r => (sv.eig_banded (numpy_band sqrt alpha beta)).2 r i) 0
        ≠ 0 :=
      tridiag_eigenvector_first_ne_zero alpha (fun k => sqrt (beta k)) hbne
        _ _ (hnp.1 i) (hnp.vec_ne_zero i)
    exact mul_pos hβ0 (sq_pos_of_ne _ hv0)
  · -- numpy sum
    show (List.ofFn fun i => beta 0 *
        (sv.eig_banded (numpy_band sqrt alpha beta)).2 0 i ^ 2).sum = beta 0
    rw [List.sum_ofFn]
    have hterm : ∀ i : Fin n,
        beta 0 * (sv.eig_banded (numpy_band sqrt alpha beta)).2 0 i ^ 2
          = beta 0 * ((sv.eig_banded (numpy_band sqrt alpha beta)).2 0 i ^ 2
              / norm2 (fun r =>
                (sv.eig_banded (numpy_band sqrt alpha beta)).2 r i)) := by
      intro i
      rw [show norm2 (fun r => (sv.eig_banded (numpy_band sqrt alpha beta)).2 r i)
          = 1 from hnp.norm2_one i, div_one]
    rw [Finset.sum_congr rfl fun i _ => hterm i, ← Finset.mul_sum,
      show (∑ i : Fin n, (sv.eig_banded (numpy_band sqrt alpha beta)).2 0 i ^ 2
          / norm2 (fun r => (sv.eig_banded (numpy_band sqrt alpha beta)).2 r i)) = 1
        from sum_first_sq_div_norm2
          (fun i r => (sv.eig_banded (numpy_band sqrt alpha beta)).2 r i)
          (fun i j hij => by rw [hnp.2.1 i j, if_neg hij])
          (fun i => by
            rw [show norm2 (fun r =>
              (sv.eig_banded (numpy_band sqrt alpha beta)).2 r i) = 1
              from hnp.norm2_one i]
            exact one_ne_zero),
      mul_one]

/-- Claim C3 fails as stated: with `beta[0] = 0` the input satisfies the
claim's well-formedness condition (`beta[k] > 0` is required only for
`k ≥ 1`), the sympy solver output is a genuine eigendecomposition of the
1×1 Jacobi matrix satisfying every solver contract, yet `custom` returns the
weight `0`, which is not strictly positive (its sum still equals
`beta[0] = 0`). -/
theorem C3_beta0_zero_counterexample :
    (∀ k : Fin 1, 0 < (k : ℕ) → 0 < qzero k)
      ∧ (∀ it ∈ trivSolvers.eigenvects (jacobi_matrix id qzero qzero),
          ∀ v ∈ it.vecs, (jacobi_matrix id qzero qzero).mulVec v = it.val • v
            ∧ v ≠ 0)
      ∧ ((trivSolvers.eigenvects (jacobi_matrix id qzero qzero)).map
          EigItem.val).Pairwise (· ≠ ·)
      ∧ ((trivSolvers.eigenvects (jacobi_matrix id qzero qzero)).map
          EigItem.mult).sum = 1
      ∧ custom id trivSolvers qzero qzero "sympy" 3 5 = .ok (([0], [0]), 5)
      ∧ ¬ (∀ ww ∈ ([0] : List ℚ), 0 < ww) := by
  refine ⟨by decide, ?_, ?_, by decide, ?_, by decide⟩
  · intro it hit v hv
    have hit' : it = ⟨0, 1, [fun _ => 1]⟩ := List.mem_singleton.mp hit
    subst hit'
    have hv' : v = fun _ => 1 := List.mem_singleton.mp hv
    subst hv'
    refine ⟨?_, ?_⟩
    · funext i
      have hi : i = 0 := Subsingleton.elim i 0
      subst hi
      simp [jacobi_matrix, sympy_tridiag, Matrix.mulVec, Matrix.dotProduct, qzero]
    · intro h
      exact one_ne_zero (congrFun h 0)
  · simp [trivSolvers]
  · show custom id trivSolvers qzero qzero "sympy" 3 5 = .ok (([0], [0]), 5)
    simp only [custom, gauss_from_coefficients_sympy, trivSolvers, processItems,
      pairOf, norm2, qzero, Fin.sum_univ_one, List.insertionSort,
      List.orderedInsert, List.map]
    norm_num

/-- Claim C7: the Gegenbauer evaluator and recurrence-coefficient provider
produce exactly the values of their Jacobi counterparts invoked with both
Jacobi parameters equal to `lmbda`, for every point set, scaling, parameter
and symbolic flag — the subclasses change nothing else. -/
theorem C7_gegenbauer_is_constrained_jacobi {S L Y E : Type*}
    (rc : S → L → L → Y → (ℕ → α) × (ℕ → α) × α) (jacobiRC : S → L → L → Y → E)
    (X : α) (scaling : S) (lmbda : L) (symbolic : Y) :
    (∀ k : ℕ, gegenbauer_Eval rc X scaling lmbda symbolic k
        = jacobi_Eval rc X scaling lmbda lmbda symbolic k)
      ∧ gegenbauer_RecurrenceCoefficients jacobiRC scaling lmbda symbolic
        = jacobiRC scaling lmbda lmbda symbolic :=
  ⟨fun _ => rfl, rfl⟩

/-- Claim C8: for both recognized standardizations and either symbolic mode,
the enr2 `Eval` and `EvalWithDegrees` constructors pass the total-mass
constant `int_1 = sqrt(pi)` to the product base — built from the sympy
`sqrt`/`pi` pair in symbolic mode and from the numpy pair in floating
mode. -/
theorem C8_enr2_normalization_sqrt_pi {R V Ξ : Type*} (RCp RCf : Bool → R)
    (sympy_sqrt : V → V) (sympy_pi : V) (numpy_sqrt : V → V) (numpy_pi : V)
    (Xsym : Bool) (X : Ξ) (standardization : String) (symbolic : SymFlag)
    (hstd : standardization = "probabilists" ∨ standardization = "physicists") :
    ∃ r : ProductEvalArgs R V Ξ,
      enr2_Eval RCp RCf sympy_sqrt sympy_pi numpy_sqrt numpy_pi Xsym X
          standardization symbolic = .ok r
        ∧ enr2_EvalWithDegrees RCp RCf sympy_sqrt sympy_pi numpy_sqrt numpy_pi
            Xsym X standardization symbolic = .ok r
        ∧ r.int_1 = (if r.symbolic then sympy_sqrt sympy_pi
            else numpy_sqrt numpy_pi)
        ∧ r.symbolic = (match symbolic with
            | SymFlag.auto => Xsym
            | SymFlag.fixed b => b) := by
  rcases hstd with h | h <;> subst h <;>
    first
      | (cases symbolic with
          | auto => cases Xsym <;> exact ⟨_, rfl, rfl, rfl, rfl⟩
          | fixed b => cases b <;> exact ⟨_, rfl, rfl, rfl, rfl⟩)

/-- Claim C10: the chebyshev1, chebyshev2 and hermite wrappers hand `custom`
(in mpmath mode) a `beta` whose zeroth entry is overwritten with
`N(beta[0], decimal_places)`, so their weight scale is the approximated
value, while legendre, jacobi, laguerre and laguerre_generalized forward
`beta` unchanged and scale the weights by the original `beta[0]`. -/
theorem C10_wrapper_beta0_overwrite [NeZero n] (sqrt : α → α) (sv : Solvers α n)
    (Nf : α → ℕ → α) (alpha beta : Fin n → α) (dp st : ℕ) :
    chebyshev1 sqrt sv Nf alpha beta dp st
        = custom sqrt sv alpha (Function.update beta 0 (Nf (beta 0) dp))
            "mpmath" dp st
      ∧ chebyshev2 sqrt sv Nf alpha beta dp st
        = custom sqrt sv alpha (Function.update beta 0 (Nf (beta 0) dp))
            "mpmath" dp st
      ∧ hermite sqrt sv Nf alpha beta dp st
        = custom sqrt sv alpha (Function.update beta 0 (Nf (beta 0) dp))
            "mpmath" dp st
      ∧ legendre sqrt sv alpha beta dp st
        = custom sqrt sv alpha beta "mpmath" dp st
      ∧ jacobi sqrt sv alpha beta dp st
        = custom sqrt sv alpha beta "mpmath" dp st
      ∧ laguerre sqrt sv alpha beta dp st
        = custom sqrt sv alpha beta "mpmath" dp st
      ∧ laguerre_generalized sqrt sv alpha beta dp st
        = custom sqrt sv alpha beta "mpmath" dp st
      ∧ chebyshev1 sqrt sv Nf alpha beta dp st
        = .ok ((List.ofFn
              (sv.tridiag_eigen dp alpha (mpmath_offdiag sqrt beta) mpmath_zrow).1,
            List.ofFn fun i => Nf (beta 0) dp *
              (sv.tridiag_eigen dp alpha (mpmath_offdiag sqrt beta) mpmath_zrow).2 i
                ^ 2), dp)
      ∧ legendre sqrt sv alpha beta dp st
        = .ok ((List.ofFn
              (sv.tridiag_eigen dp alpha (mpmath_offdiag sqrt beta) mpmath_zrow).1,
            List.ofFn fun i => beta 0 *
              (sv.tridiag_eigen dp alpha (mpmath_offdiag sqrt beta) mpmath_zrow).2 i
                ^ 2), dp) := by
  refine ⟨rfl, rfl, rfl, rfl, rfl, rfl, rfl, ?_, rfl⟩
  show custom sqrt sv alpha (Function.update beta 0 (Nf (beta 0) dp))
      "mpmath" dp st = _
  rw [show custom sqrt sv alpha (Function.update beta 0 (Nf (beta 0) dp))
        "mpmath" dp st
      = .ok (gauss_from_coefficients_mpmath sqrt sv alpha
          (Function.update beta 0 (Nf (beta 0) dp)) dp st) from rfl]
  unfold gauss_from_coefficients_mpmath
  rw [mpmath_offdiag_update, Function.update_same]

/-- On the 1×1 degenerate fixture, each eigenvects item carries between one
and `multiplicity` basis vectors. -/
theorem deg_hlen : ∀ it ∈ degSolvers.eigenvects
    (sympy_tridiag qzero (fun k => id (qone k))),
    1 ≤ it.vecs.length ∧ it.vecs.length ≤ it.mult := by
  intro it hit
  have hit' : it = ⟨3, 2, [fun _ => 1, fun _ => 1]⟩ := List.mem_singleton.mp hit
  subst hit'
  exact ⟨by decide, by decide⟩

/-- Witness for claim C1 at the 1×1 fixture: the solver contracts hold there
and the mpmath branch of the conclusion follows by applying the theorem. -/
theorem C1_custom_golub_welsch_witness :
    (∀ it ∈ trivSolvers.eigenvects (jacobi_matrix id qzero qone), ∀ v ∈ it.vecs,
      (jacobi_matrix id qzero qone).mulVec v = it.val • v ∧ v ≠ 0)
    ∧ custom id trivSolvers qzero qone "mpmath" 3 5
      = .ok ((List.ofFn
            (trivSolvers.tridiag_eigen 3 qzero (mpmath_offdiag id qone)
              mpmath_zrow).1,
          List.ofFn fun i : Fin 1 =>
            qone 0 * (fun (_ _ : Fin 1) => (1 : ℚ)) i 0 ^ 2), 3) :=
  ⟨triv_heig, (C1_custom_golub_welsch id trivSolvers qzero qone 3 5
    (fun _ _ => 1) triv_heig triv_hmp triv_hz triv_hnp).2.1.1⟩

/-- Witness for claim C2 at the 1×1 fixture: well-formedness holds there and
the numpy branch of the conclusion follows by applying the theorem. -/
theorem C2_nodes_distinct_ascending_witness :
    (∀ k : Fin 1, 0 < (k : ℕ) → 0 < qone k)
    ∧ custom id trivSolvers qzero qone "numpy" 3 5
      = .ok ((List.ofFn (trivSolvers.eig_banded (numpy_band id qzero qone)).1,
          List.ofFn fun i => qone 0 *
            (trivSolvers.eig_banded (numpy_band id qzero qone)).2 0 i ^ 2), 5) :=
  ⟨triv_hbeta.2.1, (C2_nodes_distinct_ascending id trivSolvers qzero qone 3 5
    (fun _ _ => 1) triv_hbeta.2.1 triv_hbeta.2.2 triv_heig triv_hdist triv_hmp
    triv_hz triv_hnp).2.2.2.2⟩

/-- Witness for claim C3 (amended) at the 1×1 fixture: `beta[0] = 1 > 0` and
the mpmath weights are positive and sum to `beta[0]`. -/
theorem C3_weights_positive_sum_beta0_witness :
    (0 < qone 0)
    ∧ (∀ ww ∈ (gauss_from_coefficients_mpmath id trivSolvers qzero qone 3 5).1.2,
        0 < ww)
    ∧ (gauss_from_coefficients_mpmath id trivSolvers qzero qone 3 5).1.2.sum
      = qone 0 := by
  have h := (C3_weights_positive_sum_beta0 id trivSolvers qzero qone 3 5
    (fun _ _ => 1) triv_hbeta.1 triv_hbeta.2.1 triv_hbeta.2.2 triv_heig
    triv_hdist triv_hcount triv_hmp triv_hz triv_hnp).2.1
  exact ⟨triv_hbeta.1, h.1, h.2⟩

/-- Witness for claim C4 at the 1×1 degenerate fixture: the structural
guarantee holds there, and the sympy backend fails because the reported
multiplicity is 2. -/
theorem C4_sympy_degenerate_spectrum_witness :
    (∀ it ∈ degSolvers.eigenvects (sympy_tridiag qzero (fun k => id (qone k))),
      1 ≤ it.vecs.length ∧ it.vecs.length ≤ it.mult)
    ∧ (∃ e, gauss_from_coefficients_sympy id degSolvers qzero qone = .error e) :=
  ⟨deg_hlen, ((C4_sympy_degenerate_spectrum id degSolvers qzero qone deg_hlen).1).mpr
    ⟨⟨3, 2, [fun _ => 1, fun _ => 1]⟩, List.mem_singleton_self _, by decide⟩⟩

/-- Witness for claim C5 at a concrete 2×2 instance: the super-diagonal entry
is `sqrt(beta[1])`, the banded matrix read by scipy equals the sympy matrix,
and replacing `beta[0]` leaves the mpmath off-diagonal vector unchanged. -/
theorem C5_jacobi_matrix_structure_witness :
    sympy_tridiag q2zero (fun k => id (q2two k)) 0 1 = id (q2two 1)
    ∧ band_matrix (numpy_band id q2zero q2two)
      = sympy_tridiag q2zero (fun k => id (q2two k))
    ∧ mpmath_offdiag id (Function.update q2two 0 7) = mpmath_offdiag id q2two := by
  have h := C5_jacobi_matrix_structure id q2zero q2two 7
  exact ⟨((h.2.1) 0 (by decide)).1, h.2.2.2.1, h.2.2.2.2.2.2.2.1⟩

/-- Witness for claim C8 at a concrete instance with standardization
`probabilists` and `symbolic="auto"` resolving to symbolic mode. -/
theorem C8_enr2_normalization_sqrt_pi_witness :
    (("probabilists" : String) = "probabilists"
      ∨ ("probabilists" : String) = "physicists")
    ∧ ∃ r : ProductEvalArgs Bool ℚ ℚ,
        enr2_Eval (fun b => b) (fun b => !b) (fun x => x + 1) 3 (fun x => x * 2)
            5 true 0 "probabilists" SymFlag.auto = .ok r
          ∧ enr2_EvalWithDegrees (fun b => b) (fun b => !b) (fun x => x + 1) 3
              (fun x => x * 2) 5 true 0 "probabilists" SymFlag.auto = .ok r
          ∧ r.int_1 = (if r.symbolic then (fun x => x + 1) (3 : ℚ)
              else (fun x => x * 2) (5 : ℚ))
          ∧ r.symbolic = (match SymFlag.auto with
              | SymFlag.auto => true
              | SymFlag.fixed b => b) :=
  ⟨Or.inl rfl, C8_enr2_normalization_sqrt_pi (fun b => b) (fun b => !b)
    (fun x => x + 1) 3 (fun x => x * 2) 5 true 0 "probabilists" SymFlag.auto
    (Or.inl rfl)⟩

/-- Witness for claim C9: the selector `foo` is unrecognized and `custom`
fails with the UnsupportedBackend error at the 1×1 fixture, while the three
recognized selectors dispatch to their backends. -/
theorem C9_custom_dispatch_witness :
    (("foo" : String) ∉ (["sympy", "mpmath", "numpy"] : List String))
    ∧ (custom id trivSolvers qzero qone "foo" 3 5
        = .error "UnsupportedBackend: assert mode == numpy failed"
      ∧ custom id trivSolvers qzero qone "sympy" 3 5
        = (gauss_from_coefficients_sympy id trivSolvers qzero qone).map
            (fun xw => (xw, 5))
      ∧ custom id trivSolvers qzero qone "mpmath" 3 5
        = .ok (gauss_from_coefficients_mpmath id trivSolvers qzero qone 3 5)
      ∧ custom id trivSolvers qzero qone "numpy" 3 5
        = .ok (gauss_from_coefficients_numpy id trivSolvers qzero qone, 5)) :=
  ⟨by decide, C9_custom_dispatch id trivSolvers qzero qone "foo" 3 5 (by decide)⟩

/-- Witness for claim C6 at the 1×1 fixture: the backend sets the precision
state to 3 regardless of the prior state 5 (or 7) and hands 3 to the
solver. -/
theorem C6_mpmath_precision_state_witness :
    gauss_from_coefficients_mpmath id trivSolvers qzero qone 3 5
        = ((List.ofFn
              (trivSolvers.tridiag_eigen 3 qzero (mpmath_offdiag id qone)
                mpmath_zrow).1,
            List.ofFn fun i => qone 0 *
              (trivSolvers.tridiag_eigen 3 qzero (mpmath_offdiag id qone)
                mpmath_zrow).2 i ^ 2), 3)
      ∧ gauss_from_coefficients_mpmath id trivSolvers qzero qone 3 5
        = gauss_from_coefficients_mpmath id trivSolvers qzero qone 3 7
      ∧ (gauss_from_coefficients_mpmath id trivSolvers qzero qone 3 5).2 = 3
      ∧ custom id trivSolvers qzero qone "mpmath" 3 5
        = .ok (gauss_from_coefficients_mpmath id trivSolvers qzero qone 3 5) :=
  C6_mpmath_precision_state id trivSolvers qzero qone 3 5 7

/-- Witness for claim C10 at the 1×1 fixture with the approximation oracle
`Nf x d = x + d`: the three overwriting wrappers pass the updated `beta`,
the four others pass `beta` unchanged, and the weight scales differ
accordingly. -/
theorem C10_wrapper_beta0_overwrite_witness :
    chebyshev1 id trivSolvers (fun x d => x + d) qzero qone 3 5
        = custom id trivSolvers qzero
            (Function.update qone 0 ((fun (x : ℚ) (d : ℕ) => x + d) (qone 0) 3))
            "mpmath" 3 5
      ∧ chebyshev2 id trivSolvers (fun x d => x + d) qzero qone 3 5
        = custom id trivSolvers qzero
            (Function.update qone 0 ((fun (x : ℚ) (d : ℕ) => x + d) (qone 0) 3))
            "mpmath" 3 5
      ∧ hermite id trivSolvers (fun x d => x + d) qzero qone 3 5
        = custom id trivSolvers qzero
            (Function.update qone 0 ((fun (x : ℚ) (d : ℕ) => x + d) (qone 0) 3))
            "mpmath" 3 5
      ∧ legendre id trivSolvers qzero qone 3 5
        = custom id trivSolvers qzero qone "mpmath" 3 5
      ∧ jacobi id trivSolvers qzero qone 3 5
        = custom id trivSolvers qzero qone "mpmath" 3 5
      ∧ laguerre id trivSolvers qzero qone 3 5
        = custom id trivSolvers qzero qone "mpmath" 3 5
      ∧ laguerre_generalized id trivSolvers qzero qone 3 5
        = custom id trivSolvers qzero qone "mpmath" 3 5
      ∧ chebyshev1 id trivSolvers (fun x d => x + d) qzero qone 3 5
        = .ok ((List.ofFn
              (trivSolvers.tridiag_eigen 3 qzero (mpmath_offdiag id qone)
                mpmath_zrow).1,
            List.ofFn fun i => (fun (x : ℚ) (d : ℕ) => x + d) (qone 0) 3 *
              (trivSolvers.tridiag_eigen 3 qzero (mpmath_offdiag id qone)
                mpmath_zrow).2 i ^ 2), 3)
      ∧ legendre id trivSolvers qzero qone 3 5
        = .ok ((List.ofFn
              (trivSolvers.tridiag_eigen 3 qzero (mpmath_offdiag id qone)
                mpmath_zrow).1,
            List.ofFn fun i => qone 0 *
              (trivSolvers.tridiag_eigen 3 qzero (mpmath_offdiag id qone)
                mpmath_zrow).2 i ^ 2), 3) :=
  C10_wrapper_beta0_overwrite id trivSolvers (fun x d => x + d) qzero qone 3 5

end Orthopy
